import Mathlib

/-! # eth-parser: numeric codec, subscription registry, transaction filter and ingestion loop

A shallow embedding of `utils.go`, `transaction.go` and `parser.go`.

* Go strings are rendered as Lean strings (sequences of code points); the byte-level scanners of
  `math/big` and `strconv` only ever distinguish ASCII bytes, so a non-ASCII code point behaves
  like any other non-digit.
* Go maps are rendered as partial functions `String → Option V`; a missing key is `none`.
* A Go slice value is rendered as `Option (List α)`: `none` is the `nil` slice.
* `int64` is rendered as `Int` with explicit wrap-around (`wrapInt64`) where the code does
  arithmetic on it; `big.Int` is rendered as `Int`.
* `strings.ToLower` and `strings.ToUpper` follow Go's case table up to U+017F, written out
  below; what the table yields above U+017F is a parameter (`CaseTail`), and every theorem
  about the parser holds for every value of it.
* The mutex and the log output are not part of the state: every operation is one atomic step.
-/

namespace EthParser

/-! ## Library functions used by the code -/

/-- Go's `strings.TrimPrefix(s, pre)`. -/
def trimPrefix (s pre : List Char) : List Char :=
  if pre.isPrefixOf s then s.drop pre.length else s

/-- Digit value assigned to a byte by `nat.scan` in `math/big` for a base of at most 36;
a byte that is no digit gets `MaxBase + 1 = 63`. -/
def digitVal (ch : Char) : Nat :=
  if '0'.toNat ≤ ch.toNat ∧ ch.toNat ≤ '9'.toNat then ch.toNat - '0'.toNat
  else if 'a'.toNat ≤ ch.toNat ∧ ch.toNat ≤ 'z'.toNat then ch.toNat - 'a'.toNat + 10
  else if 'A'.toNat ≤ ch.toNat ∧ ch.toNat ≤ 'Z'.toNat then ch.toNat - 'A'.toNat + 10
  else 63

/-- The digit loop of `nat.scan` for a fixed non-zero base `b`: consumes digits while they are
below the base, accumulating `z * b + d`; returns the value, the number of digits read and the
unread rest of the input. -/
def natScan (b : Nat) : List Char → Nat → Nat → Nat × Nat × List Char
  | [], z, count => (z, count, [])
  | ch :: rest, z, count =>
    if digitVal ch ≥ b then (z, count, ch :: rest)
    else natScan b rest (z * b + digitVal ch) (count + 1)

/-- The sign scanner of `math/big`: fails on empty input, consumes one leading `-` or `+`. -/
def scanSign : List Char → Option (Bool × List Char)
  | [] => none
  | ch :: rest =>
    if ch = '-' then some (true, rest)
    else if ch = '+' then some (false, rest)
    else some (false, ch :: rest)

/-- Go's `new(big.Int).SetString(s, base)` for `2 ≤ base ≤ 36`: an optional sign, at least one
digit, and the whole input consumed; `none` is the `ok = false` result. -/
def setString (s : List Char) (base : Nat) : Option Int :=
  match scanSign s with
  | none => none
  | some (neg, r) =>
    let res := natScan base r 0 0
    if res.2.1 = 0 then none
    else if res.2.2 ≠ [] then none
    else some (if neg then -(res.1 : Int) else (res.1 : Int))

/-- Decimal digits of a natural number, most significant first (`fuel` bounds the number of
digits produced; `n + 1` always suffices). -/
def utoa : Nat → Nat → List Char
  | 0, _ => []
  | fuel + 1, n =>
    if n < 10 then [Nat.digitChar n] else utoa fuel (n / 10) ++ [Nat.digitChar (n % 10)]

/-- Go's `(*big.Int).String()`: base-10 text, a leading `-` for negative values. -/
def bigString (z : Int) : String :=
  if z < 0 then String.mk ('-' :: utoa (z.natAbs + 1) z.natAbs)
  else String.mk (utoa (z.natAbs + 1) z.natAbs)

/-- Error kinds of `strconv.NumError`. -/
inductive NumError where
  | errSyntax
  | errRange
  deriving DecidableEq, Repr

/-- The byte helper `lower(c) = c | ('x' - 'X')` of `strconv`. -/
def byteLower (c : Nat) : Nat := c ||| 0x20

/-- The digit loop of `strconv.ParseUint` on `uint64` (`n` is the running value). A range error
returns at once, before the remaining bytes are looked at. -/
def parseUintLoop (base cutoff maxVal : Nat) : List Char → Nat → Nat × Option NumError
  | [], n => (n, none)
  | c :: rest, n =>
    if '0'.toNat ≤ c.toNat ∧ c.toNat ≤ '9'.toNat then
      let d := c.toNat - '0'.toNat
      if d ≥ base then (0, some .errSyntax)
      else if n ≥ cutoff then (maxVal, some .errRange)
      else
        let n1 := (n * base + d) % 2 ^ 64
        if n1 < n * base ∨ n1 > maxVal then (maxVal, some .errRange)
        else parseUintLoop base cutoff maxVal rest n1
    else if 'a'.toNat ≤ byteLower c.toNat ∧ byteLower c.toNat ≤ 'z'.toNat then
      let d := byteLower c.toNat - 'a'.toNat + 10
      if d ≥ base then (0, some .errSyntax)
      else if n ≥ cutoff then (maxVal, some .errRange)
      else
        let n1 := (n * base + d) % 2 ^ 64
        if n1 < n * base ∨ n1 > maxVal then (maxVal, some .errRange)
        else parseUintLoop base cutoff maxVal rest n1
    else (0, some .errSyntax)

/-- Go's `strconv.ParseUint(s, base, 64)` for `2 ≤ base ≤ 36`. -/
def ParseUint (s : List Char) (base : Nat) : Nat × Option NumError :=
  if s = [] then (0, some .errSyntax)
  else parseUintLoop base ((2 ^ 64 - 1) / base + 1) (2 ^ 64 - 1) s 0

/-- Go's `strconv.ParseInt(s, base, 64)` for `2 ≤ base ≤ 36`: the value and the error, if any.
On a range error the value is the nearest bound of `int64`, not zero. -/
def ParseInt (s : List Char) (base : Nat) : Int × Option NumError :=
  if s = [] then (0, some .errSyntax)
  else
    let neg : Bool := s.head? = some '-'
    let s1 : List Char := if s.head? = some '+' ∨ s.head? = some '-' then s.tail else s
    let r := ParseUint s1 base
    if r.2 = some .errSyntax then (0, r.2)
    else
      let cutoff : Nat := 2 ^ 63
      if !neg ∧ r.1 ≥ cutoff then ((cutoff : Int) - 1, some .errRange)
      else if neg ∧ r.1 > cutoff then (-(cutoff : Int), some .errRange)
      else (if neg then -(r.1 : Int) else (r.1 : Int), none)

/-- One entry of Go's `unicode.CaseRanges`: code points `lo..hi` with the deltas to add for
upper and lower case (the title-case delta is not used by the code). -/
structure CaseRange where
  lo : Nat
  hi : Nat
  deltaUpper : Int
  deltaLower : Int

/-- The constant `unicode.MaxRune`. -/
def maxRune : Int := 0x10FFFF

/-- The marker `unicode.UpperLower = MaxRune + 1` for alternating upper/lower sequences. -/
def upperLower : Int := maxRune + 1

/-- The entries of Go's `unicode.CaseRanges` that cover the code points up to U+017F (Basic
Latin, Latin-1 Supplement and Latin Extended-A). The entries for higher code points are not
written out; what they yield is the parameter `CaseTail`. -/
def caseRanges : List CaseRange :=
  [ ⟨0x0041, 0x005A, 0, 32⟩,
    ⟨0x0061, 0x007A, -32, 0⟩,
    ⟨0x00B5, 0x00B5, 743, 0⟩,
    ⟨0x00C0, 0x00D6, 0, 32⟩,
    ⟨0x00D8, 0x00DE, 0, 32⟩,
    ⟨0x00E0, 0x00F6, -32, 0⟩,
    ⟨0x00F8, 0x00FE, -32, 0⟩,
    ⟨0x00FF, 0x00FF, 121, 0⟩,
    ⟨0x0100, 0x012F, upperLower, upperLower⟩,
    ⟨0x0130, 0x0130, 0, -199⟩,
    ⟨0x0131, 0x0131, -232, 0⟩,
    ⟨0x0132, 0x0137, upperLower, upperLower⟩,
    ⟨0x0139, 0x0148, upperLower, upperLower⟩,
    ⟨0x014A, 0x0177, upperLower, upperLower⟩,
    ⟨0x0178, 0x0178, 0, -121⟩,
    ⟨0x0179, 0x017E, upperLower, upperLower⟩,
    ⟨0x017F, 0x017F, -300, 0⟩ ]

/-- Go's `unicode.To(_case, r)` on a code point up to U+017F (`toLowerCase = false` is
`UpperCase`, `true` is `LowerCase`): inside an `UpperLower` range the low bit of the offset is
cleared for upper case and set for lower case, otherwise the delta is added. -/
def unicodeTo (toLowerCase : Bool) (r : Nat) : Nat :=
  match caseRanges.find? (fun cr => decide (cr.lo ≤ r ∧ r ≤ cr.hi)) with
  | none => r
  | some cr =>
    let delta := if toLowerCase then cr.deltaLower else cr.deltaUpper
    if delta > maxRune then cr.lo + ((r - cr.lo) / 2 * 2 + (if toLowerCase then 1 else 0))
    else ((r : Int) + delta).toNat

/-- What `unicode.ToLower` and `unicode.ToUpper` return for the code points above U+017F. This
part of Go's case tables is not written out and changes with the Unicode version of the Go
release, so it is a parameter of the model: every statement about the parser below is proved
for every tail, hence for the tables of any Go release (which send, for instance, `Ω` to
`ω`). -/
structure CaseTail where
  lower : Char → Char
  upper : Char → Char

/-- The tail that changes no code point. It is the tail of the worked examples, whose strings
consist of code points up to U+017F only, for which no tail is consulted. -/
def idTail : CaseTail := { lower := id, upper := id }

variable (tail : CaseTail)

/-- Go's `unicode.ToLower` on a code point. -/
def unicodeToLower (c : Char) : Char :=
  if c.toNat ≤ 0x17F then Char.ofNat (unicodeTo true c.toNat) else tail.lower c

/-- Go's `unicode.ToUpper` on a code point. -/
def unicodeToUpper (c : Char) : Char :=
  if c.toNat ≤ 0x17F then Char.ofNat (unicodeTo false c.toNat) else tail.upper c

/-- Go's `strings.ToLower`: every code point mapped by `unicode.ToLower`. -/
def toLower (s : String) : String := String.mk (s.data.map (unicodeToLower tail))

/-- Go's `strings.ToUpper`, the reading of the specification's `UPPER`. -/
def toUpper (s : String) : String := String.mk (s.data.map (unicodeToUpper tail))

/-! ## utils.go -/

/-- `hexToDecimal` of `utils.go`. -/
def hexToDecimal (hexStr : String) : String :=
  if hexStr = "" then "0"
  else
    match setString (trimPrefix hexStr.data "0x".data) 16 with
    | none => "0"
    | some value => bigString value

/-- `calculateTransactionFee` of `utils.go`. -/
def calculateTransactionFee (gasPriceStr gasUsedStr : String) : String :=
  match setString gasPriceStr.data 10 with
  | none => "0"
  | some gasPrice =>
    match setString gasUsedStr.data 10 with
    | none => "0"
    | some gasUsed => bigString (gasPrice * gasUsed)

/-! ## transaction.go and the decoded JSON values -/

/-- `Transaction` of `transaction.go`. -/
structure Transaction where
  Hash : String
  From : String
  To : String
  Value : String
  GasPrice : String
  GasUsed : String
  BlockNumber : Int
  Timestamp : Int
  TransactionFee : String
  deriving DecidableEq, Repr

/-- A value of Go type `interface{}` as produced by `encoding/json`: `nil`, `bool`, `float64`
(its payload is never inspected by the code), `string`, `[]interface{}` and
`map[string]interface{}` (as an association list, looked up by key). -/
inductive Value where
  | null
  | bool (b : Bool)
  | number (x : Rat)
  | str (s : String)
  | arr (items : List Value)
  | obj (fields : List (String × Value))

/-- A decoded JSON object, Go's `map[string]interface{}`. -/
abbrev Object := List (String × Value)

/-- The type assertion `v.(string)` with the `ok` flag dropped: the empty string on a missing
key or a value that is no string. -/
def asString : Option Value → String
  | some (.str s) => s
  | _ => ""

/-! ## parser.go -/

/-- `EthereumParser` of `parser.go` (without the mutex). -/
structure EthereumParser where
  currentBlock : Int
  subscribedAddresses : String → Option Bool
  addressTransactions : String → Option (List Transaction)

/-- Assignment `m[k] = v` on a Go map. -/
def mapSet {V : Type} (m : String → Option V) (k : String) (v : V) : String → Option V :=
  fun x => if x = k then some v else m x

/-- The contents of the slice `m[k]` (empty for a missing key, whose slice is `nil`). -/
def sliceOf (m : String → Option (List Transaction)) (k : String) : List Transaction :=
  (m k).getD []

/-- Conversion to `int64` with wrap-around. -/
def wrapInt64 (x : Int) : Int := (x + 2 ^ 63) % 2 ^ 64 - 2 ^ 63

/-- `NewEthereumParser`, given the result of `getLatestBlockNumber()`; `none` is the
`log.Fatalf` exit. -/
def NewEthereumParser (latest : Except String Int) : Option EthereumParser :=
  match latest with
  | .error _ => none
  | .ok latestBlock =>
    let N : Int := 10000
    let startBlock := wrapInt64 (latestBlock - N)
    let startBlock := if startBlock < 0 then 0 else startBlock
    some { currentBlock := startBlock
           subscribedAddresses := fun _ => none
           addressTransactions := fun _ => none }

/-- `GetCurrentBlock`. -/
def GetCurrentBlock (p : EthereumParser) : Int := p.currentBlock

/-- `Subscribe`: the new state and the returned flag. -/
def Subscribe (p : EthereumParser) (address : String) : EthereumParser × Bool :=
  let address := toLower tail address
  ({ p with subscribedAddresses := mapSet p.subscribedAddresses address true }, true)

/-- `GetTransactions`: the returned slice (`none` is `nil`); the state is not written. -/
def GetTransactions (p : EthereumParser) (address : String) : Option (List Transaction) :=
  let address := toLower tail address
  p.addressTransactions address

/-- The body of the `for _, tx := range transactions` loop of `parseBlock`. -/
def parseTx (timestamp blockNumber : Int) (p : EthereumParser) (tx : Value) : EthereumParser :=
  match tx with
  | .obj txMap =>
    let from_ := asString (txMap.lookup "from")
    let to_ := asString (txMap.lookup "to")
    let hash := asString (txMap.lookup "hash")
    let valueHex := asString (txMap.lookup "value")
    let gasPriceHex := asString (txMap.lookup "gasPrice")
    let gasUsedHex := asString (txMap.lookup "gas")
    let value := hexToDecimal valueHex
    let gasPrice := hexToDecimal gasPriceHex
    let gasUsed := hexToDecimal gasUsedHex
    let transactionFee := calculateTransactionFee gasPrice gasUsed
    let from_ := toLower tail from_
    let to_ := toLower tail to_
    let fromSubscribed := (p.subscribedAddresses from_).isSome
    let toSubscribed := (p.subscribedAddresses to_).isSome
    if fromSubscribed ∨ toSubscribed then
      let transaction : Transaction :=
        { Hash := hash, From := from_, To := to_, Value := value, GasPrice := gasPrice,
          GasUsed := gasUsed, BlockNumber := blockNumber, Timestamp := timestamp,
          TransactionFee := transactionFee }
      let p1 : EthereumParser :=
        if fromSubscribed then
          { p with addressTransactions :=
              mapSet p.addressTransactions from_ (sliceOf p.addressTransactions from_ ++ [transaction]) }
        else p
      if toSubscribed ∧ to_ ≠ from_ ∧ to_ ≠ "" then
        { p1 with addressTransactions :=
            mapSet p1.addressTransactions to_ (sliceOf p1.addressTransactions to_ ++ [transaction]) }
      else p1
    else p
  | _ => p

/-- `parseBlock`. -/
def parseBlock (p : EthereumParser) (block : Object) : EthereumParser :=
  match block.lookup "transactions" with
  | some (.arr transactions) =>
    let timestampHex := asString (block.lookup "timestamp")
    let timestamp := (ParseInt (trimPrefix timestampHex.data "0x".data) 16).1
    let blockNumberHex := asString (block.lookup "number")
    let blockNumber := (ParseInt (trimPrefix blockNumberHex.data "0x".data) 16).1
    transactions.foldl (parseTx tail timestamp blockNumber) p
  | _ => p

/-! ## StartParsing as a step function -/

/-- Where the loop of `StartParsing` stands: about to call `getLatestBlockNumber` (`poll`),
asleep for the five seconds before the next poll (`backoff`), or about to call
`getBlockByNumber blockNum` inside the `for blockNum` loop that runs up to `latestBlock`
(`drain`). -/
inductive Phase where
  | poll
  | backoff
  | drain (blockNum latestBlock : Int)
  deriving DecidableEq, Repr

/-- The parser together with the position of its ingestion loop. -/
structure Loop where
  parser : EthereumParser
  phase : Phase

/-- What can happen next: the ledger answers the pending `getLatestBlockNumber` or
`getBlockByNumber` call, the backoff sleep ends, or a query task calls the parser. -/
inductive Event where
  | latest (r : Except String Int)
  | block (r : Except String Object)
  | wake
  | subscribe (address : String)
  | getTransactions (address : String)
  | getCurrentBlock

/-- The post statement `blockNum++` and the loop test `blockNum <= latestBlock`. -/
def nextHeight (blockNum latestBlock : Int) : Phase :=
  let b := wrapInt64 (blockNum + 1)
  if b ≤ latestBlock then .drain b latestBlock else .poll

/-- One step of the system. An answer that the loop is not waiting for is ignored; queries
read the state without changing it; `parseBlock` and the assignment of the counter that
follows it are taken as one step, and the 200 ms pause after a block takes no step. -/
def step (m : Loop) (e : Event) : Loop :=
  match m.phase, e with
  | .poll, .latest (.error _) => { m with phase := .backoff }
  | .poll, .latest (.ok latestBlock) =>
    let startBlock := wrapInt64 (m.parser.currentBlock + 1)
    if startBlock > latestBlock then { m with phase := .backoff }
    else { m with phase := .drain startBlock latestBlock }
  | .backoff, .wake => { m with phase := .poll }
  | .drain blockNum latestBlock, .block (.error _) =>
    { m with phase := nextHeight blockNum latestBlock }
  | .drain blockNum latestBlock, .block (.ok blk) =>
    { parser := { parseBlock tail m.parser blk with currentBlock := blockNum }
      phase := nextHeight blockNum latestBlock }
  | _, .subscribe address => { m with parser := (Subscribe tail m.parser address).1 }
  | _, _ => m

/-- The system after a sequence of events. -/
def run (m : Loop) (es : List Event) : Loop := es.foldl (step tail) m

/-- The loop right after `NewEthereumParser` returned and `StartParsing` was started. -/
def start (latest : Except String Int) : Option Loop :=
  (NewEthereumParser latest).map (fun p => { parser := p, phase := .poll })

/-! ## main.go: the `/transactions` handler -/

/-- The `/transactions` handler of `main.go`, given the `address` query parameter: an error
for an empty address, otherwise the slice that is encoded, with `nil` replaced by the empty
slice. -/
def transactionsHandler (p : EthereumParser) (address : String) :
    Except String (Option (List Transaction)) :=
  if address = "" then .error "Address is required"
  else
    match GetTransactions tail p address with
    | none => .ok (some [])
    | some transactions => .ok (some transactions)

/-! ## utils.go: `weiToEther` and the `big.Float` operations it uses

A finite `big.Float` is a sign and a magnitude `mant / 2 ^ scale`. `SetInt` on a fresh value
takes the precision `max (BitLen x) 64` and is exact; `big.NewFloat(1e18)` is exactly `10^18`
with precision 53; `Quo` on a fresh value takes the larger of the two precisions and rounds
the quotient to that many bits, to nearest with ties to even; `Text('f', 18)` rounds the exact
decimal expansion to 18 fractional digits, ties to even. -/

/-- Number of bits of a natural number (`fuel` bounds the recursion; `n` always suffices). -/
def bitLenAux : Nat → Nat → Nat
  | 0, _ => 0
  | fuel + 1, n => if n = 0 then 0 else bitLenAux fuel (n / 2) + 1

/-- Go's `BitLen`: the length of a natural number in bits, 0 for 0. -/
def bitLen (n : Nat) : Nat := bitLenAux n n

/-- The fraction `num / den` rounded to the nearest integer, ties to even. -/
def roundHalfEven (num den : Nat) : Nat :=
  if 2 * (num % den) > den ∨ (2 * (num % den) = den ∧ (num / den) % 2 = 1) then num / den + 1
  else num / den

/-- The binary scale `s` at which the quotient of the positive numbers `x` and `y` has a
mantissa of `prec` bits: `2 ^ (prec - 1) ≤ x * 2 ^ s / y < 2 ^ prec` (for `prec ≥ bitLen x`). -/
def quoScale (x y prec : Nat) : Nat :=
  if x * 2 ^ (prec + bitLen y - bitLen x - 1) ≥ 2 ^ (prec - 1) * y then
    prec + bitLen y - bitLen x - 1
  else prec + bitLen y - bitLen x

/-- The mantissa of `Quo(x, y)` at precision `prec`, for the scale `quoScale x y prec`: the
scaled quotient rounded to nearest, ties to even. -/
def quoMant (x y prec : Nat) : Nat := roundHalfEven (x * 2 ^ quoScale x y prec) y

/-- The `width` low decimal digits of `n`, most significant first, padded with zeros. -/
def fixedDigits : Nat → Nat → List Char
  | 0, _ => []
  | width + 1, n => fixedDigits width (n / 10) ++ [Nat.digitChar (n % 10)]

/-- Fixed-point text with 18 fractional digits of `units / 10^18`. -/
def fixedPoint18 (neg : Bool) (units : Nat) : String :=
  String.mk ((if neg then ['-'] else []) ++
    (utoa (units / 10 ^ 18 + 1) (units / 10 ^ 18) ++ '.' :: fixedDigits 18 (units % 10 ^ 18)))

/-- Go's `Text('f', 18)` of the `big.Float` with sign `neg` and magnitude `mant / 2 ^ scale`:
the value is rounded to a whole number of units of `10^-18`, ties to even, and printed. -/
def textF18 (neg : Bool) (mant scale : Nat) : String :=
  fixedPoint18 neg (roundHalfEven (mant * 10 ^ 18) (2 ^ scale))

/-- `weiToEther` of `utils.go`. -/
def weiToEther (weiStr : String) : String :=
  match setString weiStr.data 10 with
  | none => "0"
  | some wei =>
    if wei.natAbs = 0 then textF18 false 0 0
    else
      let prec := max (bitLen wei.natAbs) 64
      textF18 (decide (wei < 0)) (quoMant wei.natAbs (10 ^ 18) prec)
        (quoScale wei.natAbs (10 ^ 18) prec)

/-! ## Vocabulary of the specification -/

/-- The hexadecimal digits `0-9`, `a-f`, `A-F`. -/
def hexDigits : List Char := "0123456789abcdefABCDEF".data

/-- The decimal digits `0-9`. -/
def decDigits : List Char := "0123456789".data

/-- The number a hexadecimal digit stands for: its position in `0123456789abcdef`, or in
`0123456789ABCDEF` for an upper-case letter. -/
def hexDigitValue (c : Char) : Nat :=
  if c ∈ "0123456789abcdef".data then "0123456789abcdef".data.indexOf c
  else "0123456789ABCDEF".data.indexOf c

/-- The number a decimal digit stands for: its position in `0123456789`. -/
def decDigitValue (c : Char) : Nat := decDigits.indexOf c

/-- Positional value of a digit string in base `b`, most significant digit first. -/
def digitsValue (b : Nat) (dv : Char → Nat) : List Char → Nat
  | [] => 0
  | c :: t => dv c * b ^ t.length + digitsValue b dv t

/-- The natural number a string of hexadecimal digits denotes. -/
def hexValue (h : String) : Nat := digitsValue 16 hexDigitValue h.data

/-- The natural number a string of decimal digits denotes. -/
def decimalValue (r : String) : Nat := digitsValue 10 decDigitValue r.data

/-- Canonical base-10 text of a natural number: at least one digit, decimal digits only, and a
leading zero only in `"0"` itself. -/
def IsCanonicalDecimal (r : String) : Prop :=
  r.data ≠ [] ∧ (∀ c ∈ r.data, c ∈ decDigits) ∧ (r.data.head? = some '0' → r = "0")

instance (r : String) : Decidable (IsCanonicalDecimal r) := by
  unfold IsCanonicalDecimal
  infer_instance

/-- One or more digits, all taken from `ds`. -/
def plainDigits (ds : List Char) (l : List Char) : Bool :=
  !l.isEmpty && l.all (fun c => decide (c ∈ ds))

/-- An optional sign `+` or `-` followed by one or more digits from `ds`. -/
def signedDigits (ds : List Char) : List Char → Bool
  | [] => false
  | c :: t => if c = '-' ∨ c = '+' then plainDigits ds t else plainDigits ds (c :: t)

/-- The form named by the specification of `hexToDecimal`: an optional `0x` followed by one or
more hexadecimal digits. -/
def isHexForm (s : String) : Bool :=
  match s.data with
  | '0' :: 'x' :: h => plainDigits hexDigits h
  | h => plainDigits hexDigits h

/-- The form that `hexToDecimal` converts: an optional `0x`, then an optional sign, then one or
more hexadecimal digits. -/
def isSignedHexForm (s : String) : Bool :=
  match s.data with
  | '0' :: 'x' :: h => signedDigits hexDigits h
  | h => signedDigits hexDigits h

/-- A base-10 integer literal: an optional sign followed by one or more decimal digits. -/
def isDecimalLiteral (s : String) : Bool := signedDigits decDigits s.data

/-- The integer a base-10 integer literal denotes. -/
def literalValue (s : String) : Int :=
  match s.data with
  | [] => 0
  | c :: t =>
    if c = '-' then -(digitsValue 10 decDigitValue t : Int)
    else if c = '+' then (digitsValue 10 decDigitValue t : Int)
    else (digitsValue 10 decDigitValue (c :: t) : Int)

/-- Canonical base-10 text of an integer: canonical digits, preceded by `-` exactly for a
negative value (so never `-0`). -/
def IsCanonicalInteger (r : String) : Prop :=
  match r.data with
  | [] => False
  | c :: t =>
    if c = '-' then IsCanonicalDecimal (String.mk t) ∧ t ≠ ['0']
    else IsCanonicalDecimal r

instance (r : String) : Decidable (IsCanonicalInteger r) := by
  unfold IsCanonicalInteger
  split <;> infer_instance

/-- A parser at the given height with no subscription and an empty index. -/
def blankParser (currentBlock : Int) : EthereumParser :=
  { currentBlock := currentBlock
    subscribedAddresses := fun _ => none
    addressTransactions := fun _ => none }

/-- Membership of an address in the subscription set (presence of the key, as tested by
`parseBlock`). -/
def isSubscribed (p : EthereumParser) (a : String) : Bool := (p.subscribedAddresses a).isSome

/-- The well-formed transaction records of a block: the key/value records of its
`transactions` array, in array order. -/
def wellFormedRecords (block : Object) : List Object :=
  match block.lookup "transactions" with
  | some (.arr transactions) =>
    transactions.filterMap (fun tx => match tx with
      | .obj txMap => some txMap
      | _ => none)
  | _ => []

/-- The lower-cased `from` of a record. -/
def recordFrom (r : Object) : String := toLower tail (asString (r.lookup "from"))

/-- The lower-cased `to` of a record. -/
def recordTo (r : Object) : String := toLower tail (asString (r.lookup "to"))

/-- The decoded timestamp of a block. -/
def blockTimestamp (block : Object) : Int :=
  (ParseInt (trimPrefix (asString (block.lookup "timestamp")).data "0x".data) 16).1

/-- The decoded height echo of a block. -/
def blockHeight (block : Object) : Int :=
  (ParseInt (trimPrefix (asString (block.lookup "number")).data "0x".data) 16).1

/-- The `Transaction` decoded from a record of a block with the given timestamp and height. -/
def decodeTx (timestamp blockNumber : Int) (r : Object) : Transaction :=
  { Hash := asString (r.lookup "hash")
    From := recordFrom tail r
    To := recordTo tail r
    Value := hexToDecimal (asString (r.lookup "value"))
    GasPrice := hexToDecimal (asString (r.lookup "gasPrice"))
    GasUsed := hexToDecimal (asString (r.lookup "gas"))
    BlockNumber := blockNumber
    Timestamp := timestamp
    TransactionFee :=
      calculateTransactionFee (hexToDecimal (asString (r.lookup "gasPrice")))
        (hexToDecimal (asString (r.lookup "gas"))) }

/-- The filing step of `parseBlock` for one decoded transaction with lower-cased sender `f` and
receiver `t`: under `f` if subscribed, and under `t` if subscribed, different from `f` and
non-empty. -/
def fileTransaction (p : EthereumParser) (f t : String) (tx : Transaction) : EthereumParser :=
  if (p.subscribedAddresses f).isSome ∨ (p.subscribedAddresses t).isSome then
    let p1 : EthereumParser :=
      if (p.subscribedAddresses f).isSome then
        { p with addressTransactions :=
            mapSet p.addressTransactions f (sliceOf p.addressTransactions f ++ [tx]) }
      else p
    if (p.subscribedAddresses t).isSome ∧ t ≠ f ∧ t ≠ "" then
      { p1 with addressTransactions :=
          mapSet p1.addressTransactions t (sliceOf p1.addressTransactions t ++ [tx]) }
    else p1
  else p

/-- The record touches `a`, a subscribed address, as sender or as receiver. -/
def touches (p : EthereumParser) (a : String) (r : Object) : Bool :=
  isSubscribed p a && (decide (recordFrom tail r = a) || decide (recordTo tail r = a))

/-- The records that `parseBlock` files under `a`: `a` is subscribed and is the sender, or is
the receiver and not the empty string. -/
def filedUnder (p : EthereumParser) (a : String) (r : Object) : Bool :=
  isSubscribed p a &&
    (decide (recordFrom tail r = a) || (decide (recordTo tail r = a) && decide (a ≠ "")))

/-- What one element of the `transactions` array adds to the sequence of `a`. -/
def filedTx (p : EthereumParser) (timestamp blockNumber : Int) (a : String) :
    Value → List Transaction
  | .obj r => if filedUnder tail p a r then [decodeTx tail timestamp blockNumber r] else []
  | _ => []

/-- A ledger height at startup: a block height, so non-negative, and below `2^63 - 1`. -/
def heightInRange (h : Int) : Prop := 0 ≤ h ∧ h < 2 ^ 63 - 1

instance (h : Int) : Decidable (heightInRange h) := by
  unfold heightInRange
  infer_instance

/-- An event whose ledger height, if it carries one, is below `2^63 - 1`. -/
def Event.inRange : Event → Prop
  | .latest (.ok h) => h < 2 ^ 63 - 1
  | _ => True

/-- The fetch of a block failed. -/
def fetchFailed : Except String Object → Bool
  | .error _ => true
  | .ok _ => false

/-- The invariant of the loop: the progress counter is a height in range, and inside the
`for blockNum` loop it is below `blockNum`, which is at most `latestBlock`, itself below
`2^63 - 1`. -/
def LoopInv (m : Loop) : Prop :=
  heightInRange m.parser.currentBlock ∧
    match m.phase with
    | .drain blockNum latestBlock =>
      m.parser.currentBlock < blockNum ∧ blockNum ≤ latestBlock ∧ latestBlock < 2 ^ 63 - 1
    | _ => True

/-- An element of the `transactions` array of the right shape: a key/value record. -/
def isRecord : Value → Bool
  | .obj _ => true
  | _ => false

/-- The filing condition in the words of the specification: `a` is subscribed and is the
lower-cased `from`, or is the lower-cased `to` with `to` non-empty and different from `from`. -/
def filedAsStated (p : EthereumParser) (a : String) (r : Object) : Bool :=
  isSubscribed p a &&
    (decide (recordFrom tail r = a) ||
      (decide (recordTo tail r = a) && decide (recordTo tail r ≠ "") &&
        decide (recordTo tail r ≠ recordFrom tail r)))

/-- The numeric fields of a recorded transaction are base-10 integer texts, both operands of
the fee are read by `calculateTransactionFee` without failure, and the fee is the base-10 text
of the exact product of the recorded price and gas. -/
def DecimalAmounts (tx : Transaction) : Prop :=
  IsCanonicalInteger tx.Value ∧ IsCanonicalInteger tx.GasPrice ∧ IsCanonicalInteger tx.GasUsed ∧
    IsCanonicalInteger tx.TransactionFee ∧
    (setString tx.GasPrice.data 10).isSome = true ∧ (setString tx.GasUsed.data 10).isSome = true ∧
    literalValue tx.TransactionFee = literalValue tx.GasPrice * literalValue tx.GasUsed

instance (tx : Transaction) : Decidable (DecimalAmounts tx) := by
  unfold DecimalAmounts
  infer_instance

/-- The digit that the loop of `strconv.ParseUint` reads from a byte with code `n` in the given
base, if it reads one. -/
def uintDigit (base : Nat) (n : Nat) : Option Nat :=
  if '0'.toNat ≤ n ∧ n ≤ '9'.toNat then
    (if n - '0'.toNat ≥ base then none else some (n - '0'.toNat))
  else if 'a'.toNat ≤ byteLower n ∧ byteLower n ≤ 'z'.toNat then
    (if byteLower n - 'a'.toNat + 10 ≥ base then none else some (byteLower n - 'a'.toNat + 10))
  else none

/-- A text without its leading sign `+` or `-`, if it has one. -/
def stripSign : List Char → List Char
  | [] => []
  | c :: t => if c = '+' ∨ c = '-' then t else c :: t

/-- The text of a block field as `parseBlock` reads it: the empty string when the field is
missing or is no string. -/
def fieldText (block : Object) (key : String) : String := asString (block.lookup key)

/-- A field text that does not decode: after the optional `0x` and the optional sign nothing is
left, or a character that is no hexadecimal digit comes after hexadecimal digits whose value
is below `2^64`. -/
def MalformedHex (text : String) : Prop :=
  stripSign (trimPrefix text.data "0x".data) = [] ∨
    ∃ ds c rest, stripSign (trimPrefix text.data "0x".data) = ds ++ c :: rest ∧
      (∀ x ∈ ds, x ∈ hexDigits) ∧ c ∉ hexDigits ∧ digitsValue 16 hexDigitValue ds < 2 ^ 64

/-- A field text of hexadecimal digits (after the optional `0x`, without sign) whose value is
above the signed 64-bit range. -/
def OverflowingHex (text : String) : Prop :=
  trimPrefix text.data "0x".data ≠ [] ∧
    (∀ x ∈ trimPrefix text.data "0x".data, x ∈ hexDigits) ∧
    2 ^ 63 ≤ digitsValue 16 hexDigitValue (trimPrefix text.data "0x".data)

/-- The operations that change the parser after its construction: a `Subscribe` call, a
`parseBlock` call, and the assignment of the progress counter by the ingestion loop. -/
inductive Op where
  | subscribe (address : String)
  | parse (block : Object)
  | advance (blockNum : Int)

/-- The parser after one operation. -/
def applyOp (p : EthereumParser) : Op → EthereumParser
  | .subscribe address => (Subscribe tail p address).1
  | .parse block => parseBlock tail p block
  | .advance blockNum => { p with currentBlock := blockNum }

/-- The parser after a sequence of operations. -/
def applyOps (p : EthereumParser) (ops : List Op) : EthereumParser := ops.foldl (applyOp tail) p

/-- A string in lower-case form: the lower-case form of some string. -/
def IsLowerCase (s : String) : Prop := ∃ x, toLower tail x = s

/-- A property of the case tables above U+017F: the lower-case form of a code point is left
unchanged by lower-casing. -/
def LowerStable : Prop :=
  ∀ c : Char, 0x17F < c.toNat → unicodeToLower tail (tail.lower c) = tail.lower c

/-- The invariant of the index: subscribed addresses are in lower-case form, every key of the
index is subscribed, and every transaction stored under a key has that key as its `From` or its
`To`, both in lower-case form. -/
def IndexInv (p : EthereumParser) : Prop :=
  (∀ k, isSubscribed p k = true → IsLowerCase tail k) ∧
    ∀ a l, p.addressTransactions a = some l →
      isSubscribed p a = true ∧
        ∀ tx ∈ l, (tx.From = a ∨ tx.To = a) ∧ IsLowerCase tail tx.From ∧ IsLowerCase tail tx.To

variable {tail}

/-! ## Scanning and printing numbers -/

theorem digitVal_hex : ∀ c ∈ hexDigits, digitVal c = hexDigitValue c ∧ digitVal c < 16 := by
  decide

theorem digitVal_dec : ∀ c ∈ decDigits, digitVal c = decDigitValue c ∧ digitVal c < 10 := by
  decide

theorem char_eq_of_toNat (c : Char) (n : Nat) (h : c.toNat = n) : c = Char.ofNat n := by
  rw [← h, Char.ofNat_toNat]

theorem mem_hexDigits_of_digitVal_lt (c : Char) (h : digitVal c < 16) : c ∈ hexDigits := by
  have hc := char_eq_of_toNat c
  unfold digitVal at h
  simp only [Char.reduceToNat] at h
  generalize c.toNat = n at hc h
  have hn : (48 ≤ n ∧ n ≤ 57) ∨ (97 ≤ n ∧ n ≤ 102) ∨ (65 ≤ n ∧ n ≤ 70) := by
    split_ifs at h <;> omega
  have hc2 := hc n rfl
  subst hc2
  rcases hn with ⟨h1, h2⟩ | ⟨h1, h2⟩ | ⟨h1, h2⟩ <;> interval_cases n <;> decide

theorem mem_decDigits_of_digitVal_lt (c : Char) (h : digitVal c < 10) : c ∈ decDigits := by
  have hc := char_eq_of_toNat c
  unfold digitVal at h
  simp only [Char.reduceToNat] at h
  generalize c.toNat = n at hc h
  have hn : 48 ≤ n ∧ n ≤ 57 := by
    split_ifs at h <;> omega
  have hc2 := hc n rfl
  subst hc2
  obtain ⟨h1, h2⟩ := hn
  interval_cases n <;> decide

theorem digitsValue_congr (b : Nat) (f g : Char → Nat) (l : List Char)
    (h : ∀ c ∈ l, f c = g c) : digitsValue b f l = digitsValue b g l := by
  induction l with
  | nil => rfl
  | cons c t ih =>
    simp only [digitsValue]
    rw [h c (List.mem_cons_self _ _), ih (fun x hx => h x (List.mem_cons_of_mem _ hx))]

theorem digitsValue_append (b : Nat) (f : Char → Nat) (l r : List Char) :
    digitsValue b f (l ++ r) = digitsValue b f l * b ^ r.length + digitsValue b f r := by
  induction l with
  | nil => simp [digitsValue]
  | cons c t ih =>
    rw [List.cons_append]
    simp only [digitsValue, ih, List.length_append]
    ring

theorem natScan_all (b : Nat) (l : List Char) (hok : ∀ c ∈ l, digitVal c < b) (z k : Nat) :
    natScan b l z k = (z * b ^ l.length + digitsValue b digitVal l, k + l.length, []) := by
  induction l generalizing z k with
  | nil => simp [natScan, digitsValue]
  | cons c t ih =>
    have hc : ¬ digitVal c ≥ b := by
      have := hok c (List.mem_cons_self _ _)
      omega
    simp only [natScan, hc, if_false]
    rw [ih (fun x hx => hok x (List.mem_cons_of_mem _ hx))]
    simp only [digitsValue, List.length_cons, Prod.mk.injEq, and_true]
    constructor
    · ring
    · omega

theorem natScan_bad (b : Nat) (l : List Char) (hbad : ¬ ∀ c ∈ l, digitVal c < b) (z k : Nat) :
    (natScan b l z k).2.2 ≠ [] := by
  induction l generalizing z k with
  | nil => exact absurd (fun c hc => absurd hc (List.not_mem_nil c)) hbad
  | cons c t ih =>
    by_cases hc : digitVal c ≥ b
    · simp [natScan, hc]
    · simp only [natScan, hc, if_false]
      apply ih
      intro hall
      apply hbad
      intro x hx
      rcases List.mem_cons.1 hx with rfl | hx
      · omega
      · exact hall x hx

theorem scanSign_digit (b : Nat) (hb : b ≤ 62) (c : Char) (t : List Char) (hc : digitVal c < b) :
    scanSign (c :: t) = some (false, c :: t) := by
  have h1 : c ≠ '-' := by
    rintro rfl
    have : digitVal '-' = 63 := by decide
    omega
  have h2 : c ≠ '+' := by
    rintro rfl
    have : digitVal '+' = 63 := by decide
    omega
  simp [scanSign, h1, h2]

theorem setString_digits (b : Nat) (hb : b ≤ 62) (l : List Char) (hne : l ≠ [])
    (hok : ∀ c ∈ l, digitVal c < b) :
    setString l b = some (digitsValue b digitVal l : Int) := by
  cases l with
  | nil => exact absurd rfl hne
  | cons c t =>
    simp only [setString, scanSign_digit b hb c t (hok c (List.mem_cons_self _ _)),
      natScan_all b (c :: t) hok]
    simp

theorem setString_neg (b : Nat) (l : List Char) (hne : l ≠ [])
    (hok : ∀ c ∈ l, digitVal c < b) :
    setString ('-' :: l) b = some (-(digitsValue b digitVal l : Int)) := by
  cases l with
  | nil => exact absurd rfl hne
  | cons c t =>
    have h := natScan_all b (c :: t) hok 0 0
    simp [setString, scanSign, h]

theorem setString_pos (b : Nat) (l : List Char) (hne : l ≠ [])
    (hok : ∀ c ∈ l, digitVal c < b) :
    setString ('+' :: l) b = some (digitsValue b digitVal l : Int) := by
  cases l with
  | nil => exact absurd rfl hne
  | cons c t =>
    have h := natScan_all b (c :: t) hok 0 0
    simp [setString, scanSign, h]

theorem setString_fail_of_natScan (b : Nat) (neg : Bool) (s r : List Char)
    (hs : scanSign s = some (neg, r)) (hbad : r = [] ∨ ¬ ∀ c ∈ r, digitVal c < b) :
    setString s b = none := by
  simp only [setString, hs]
  rcases hbad with rfl | hbad
  · simp [natScan]
  · have := natScan_bad b r hbad 0 0
    simp [this]

theorem digitChar_facts : ∀ d, d < 10 →
    Nat.digitChar d ∈ decDigits ∧ decDigitValue (Nat.digitChar d) = d ∧
      (d ≠ 0 → Nat.digitChar d ≠ '0') ∧ Nat.digitChar d ≠ '-' := by
  decide

theorem utoa_spec (fuel n : Nat) (h : n < fuel) :
    utoa fuel n ≠ [] ∧ (∀ c ∈ utoa fuel n, c ∈ decDigits) ∧
      digitsValue 10 decDigitValue (utoa fuel n) = n ∧
      (n ≠ 0 → (utoa fuel n).head? ≠ some '0') ∧ (n = 0 → utoa fuel n = ['0']) := by
  induction fuel generalizing n with
  | zero => omega
  | succ fuel ih =>
    by_cases hn : n < 10
    · obtain ⟨h1, h2, h3, _⟩ := digitChar_facts n hn
      simp only [utoa, hn, if_true]
      refine ⟨by simp, ?_, ?_, ?_, ?_⟩
      · intro c hc
        rw [List.mem_singleton] at hc
        rw [hc]
        exact h1
      · simp [digitsValue, h2]
      · intro h0
        simpa using h3 h0
      · intro h0
        subst h0
        rfl
    · have hlt : n / 10 < fuel := by omega
      obtain ⟨i1, i2, i3, i4, _⟩ := ih (n / 10) hlt
      obtain ⟨h1, h2, _, _⟩ := digitChar_facts (n % 10) (Nat.mod_lt _ (by norm_num))
      simp only [utoa, hn, if_false]
      refine ⟨by simp, ?_, ?_, ?_, ?_⟩
      · intro c hc
        rcases List.mem_append.1 hc with hc | hc
        · exact i2 c hc
        · rw [List.mem_singleton] at hc
          rw [hc]
          exact h1
      · rw [digitsValue_append, i3]
        simp only [digitsValue, h2, List.length_singleton, List.length_nil]
        omega
      · intro _
        have hq : n / 10 ≠ 0 := by omega
        have := i4 hq
        cases hu : utoa fuel (n / 10) with
        | nil => exact absurd hu i1
        | cons a t =>
          rw [hu] at this
          simpa using this
      · intro h0
        omega

theorem utoa_canonical (n : Nat) : IsCanonicalDecimal (String.mk (utoa (n + 1) n)) := by
  obtain ⟨h1, h2, _, h4, h5⟩ := utoa_spec (n + 1) n (Nat.lt_succ_self n)
  refine ⟨h1, h2, ?_⟩
  intro hh
  by_cases h0 : n = 0
  · rw [h5 h0]
  · exact absurd hh (h4 h0)

theorem utoa_value (n : Nat) : digitsValue 10 decDigitValue (utoa (n + 1) n) = n :=
  (utoa_spec (n + 1) n (Nat.lt_succ_self n)).2.2.1

theorem bigString_ofNat (n : Nat) : bigString (n : Int) = String.mk (utoa (n + 1) n) := by
  simp [bigString]

theorem mem_of_plainDigits (ds l : List Char) (h : plainDigits ds l = true) :
    l ≠ [] ∧ ∀ c ∈ l, c ∈ ds := by
  simp only [plainDigits, Bool.and_eq_true, Bool.not_eq_true', List.all_eq_true,
    decide_eq_true_eq] at h
  refine ⟨?_, h.2⟩
  intro hl
  rw [hl] at h
  simp at h

theorem plainDigits_of_mem (ds l : List Char) (hne : l ≠ []) (h : ∀ c ∈ l, c ∈ ds) :
    plainDigits ds l = true := by
  cases l with
  | nil => exact absurd rfl hne
  | cons c t =>
    simp only [plainDigits, List.isEmpty_cons, Bool.not_false, Bool.true_and, List.all_eq_true,
      decide_eq_true_eq]
    exact h

theorem trimPrefix_0x (h : List Char) : trimPrefix ('0' :: 'x' :: h) "0x".data = h := by
  simp [trimPrefix, List.isPrefixOf]

theorem trimPrefix_no_x (l : List Char) (h : 'x' ∉ l) : trimPrefix l "0x".data = l := by
  unfold trimPrefix
  split
  · rename_i hp
    rw [List.isPrefixOf_iff_prefix] at hp
    obtain ⟨t, rfl⟩ := hp
    exact absurd (by simp) h
  · rfl

theorem plainDigits_false (ds l : List Char) (h : plainDigits ds l = false) :
    l = [] ∨ ¬ ∀ c ∈ l, c ∈ ds := by
  by_cases hl : l = []
  · exact Or.inl hl
  · right
    intro hall
    rw [plainDigits_of_mem ds l hl hall] at h
    exact Bool.noConfusion h

theorem setString_none_of_not_signed (b : Nat) (ds l : List Char)
    (hds : ∀ c, digitVal c < b → c ∈ ds) (h : signedDigits ds l = false) :
    setString l b = none := by
  cases l with
  | nil => rfl
  | cons c t =>
    simp only [signedDigits] at h
    by_cases hc : c = '-' ∨ c = '+'
    · rw [if_pos hc] at h
      have hbad : t = [] ∨ ¬ ∀ x ∈ t, digitVal x < b := by
        rcases plainDigits_false ds t h with h1 | h1
        · exact Or.inl h1
        · exact Or.inr (fun hall => h1 (fun x hx => hds x (hall x hx)))
      rcases hc with rfl | rfl
      · exact setString_fail_of_natScan b true _ t (by simp [scanSign]) hbad
      · exact setString_fail_of_natScan b false _ t (by simp [scanSign]) hbad
    · rw [if_neg hc] at h
      have hbad : (c :: t) = [] ∨ ¬ ∀ x ∈ c :: t, digitVal x < b := by
        rcases plainDigits_false ds (c :: t) h with h1 | h1
        · exact Or.inl h1
        · exact Or.inr (fun hall => h1 (fun x hx => hds x (hall x hx)))
      have hs : scanSign (c :: t) = some (false, c :: t) := by
        have h1 : c ≠ '-' := fun e => hc (Or.inl e)
        have h2 : c ≠ '+' := fun e => hc (Or.inr e)
        simp [scanSign, h1, h2]
      exact setString_fail_of_natScan b false _ _ hs hbad

theorem setString_decimal_literal (s : String) (h : isDecimalLiteral s = true) :
    setString s.data 10 = some (literalValue s) := by
  unfold isDecimalLiteral at h
  unfold literalValue
  cases hd : s.data with
  | nil =>
    rw [hd] at h
    exact Bool.noConfusion h
  | cons c t =>
    rw [hd] at h
    simp only [signedDigits] at h
    have key : ∀ l, plainDigits decDigits l = true →
        (l ≠ [] ∧ (∀ x ∈ l, digitVal x < 10) ∧
          digitsValue 10 digitVal l = digitsValue 10 decDigitValue l) := by
      intro l hl
      obtain ⟨h1, h2⟩ := mem_of_plainDigits decDigits l hl
      exact ⟨h1, fun x hx => (digitVal_dec x (h2 x hx)).2,
        digitsValue_congr 10 _ _ l (fun x hx => (digitVal_dec x (h2 x hx)).1)⟩
    by_cases hc : c = '-' ∨ c = '+'
    · rw [if_pos hc] at h
      obtain ⟨k1, k2, k3⟩ := key t h
      rcases hc with rfl | rfl
      · simp only [if_true]
        rw [setString_neg 10 t k1 k2, k3]
      · have hpm : ('+' : Char) ≠ '-' := by decide
        simp only [hpm, if_false, if_true]
        rw [setString_pos 10 t k1 k2, k3]
    · rw [if_neg hc] at h
      obtain ⟨k1, k2, k3⟩ := key (c :: t) h
      have h1 : c ≠ '-' := fun e => hc (Or.inl e)
      have h2 : c ≠ '+' := fun e => hc (Or.inr e)
      simp only [h1, h2, if_false]
      rw [setString_digits 10 (by norm_num) (c :: t) k1 k2, k3]

theorem utoa_head_not_sign (n : Nat) :
    ∃ c t, utoa (n + 1) n = c :: t ∧ c ≠ '-' ∧ c ≠ '+' := by
  obtain ⟨h1, h2, _⟩ := utoa_spec (n + 1) n (Nat.lt_succ_self n)
  cases hu : utoa (n + 1) n with
  | nil => exact absurd hu h1
  | cons c t =>
    refine ⟨c, t, rfl, ?_, ?_⟩
    · rintro rfl
      have := h2 '-' (by rw [hu]; exact List.mem_cons_self _ _)
      revert this
      decide
    · rintro rfl
      have := h2 '+' (by rw [hu]; exact List.mem_cons_self _ _)
      revert this
      decide

theorem bigString_canonical (z : Int) :
    IsCanonicalInteger (bigString z) ∧ literalValue (bigString z) = z := by
  by_cases hz : z < 0
  · have hdata : (bigString z).data = '-' :: utoa (z.natAbs + 1) z.natAbs := by
      simp [bigString, hz]
    have hne : z.natAbs ≠ 0 := by omega
    obtain ⟨_, _, h3, h4, _⟩ := utoa_spec (z.natAbs + 1) z.natAbs (Nat.lt_succ_self _)
    constructor
    · unfold IsCanonicalInteger
      rw [hdata]
      simp only [if_true]
      refine ⟨utoa_canonical z.natAbs, ?_⟩
      intro h0
      apply h4 hne
      rw [h0]
      rfl
    · unfold literalValue
      rw [hdata]
      simp only [if_true]
      rw [h3]
      omega
  · have hdata : (bigString z).data = utoa (z.natAbs + 1) z.natAbs := by
      simp [bigString, hz]
    have hstr : bigString z = String.mk (utoa (z.natAbs + 1) z.natAbs) := by
      simp [bigString, hz]
    obtain ⟨c, t, hu, hc1, hc2⟩ := utoa_head_not_sign z.natAbs
    have hv := utoa_value z.natAbs
    constructor
    · unfold IsCanonicalInteger
      rw [hdata, hu]
      simp only [hc1, if_false]
      rw [hstr]
      exact utoa_canonical z.natAbs
    · unfold literalValue
      rw [hdata, hu]
      simp only [hc1, hc2, if_false]
      rw [← hu, hv]
      omega

/-! ## Claims on the numeric codec -/

/-- C1: for every non-empty string `h` of hexadecimal digits, of any length, `hexToDecimal`
gives the same result with and without the `0x` in front of `h`, and that result is the
canonical base-10 text (digits only, no leading zero except for `"0"`) of the number that `h`
denotes. -/
theorem hexToDecimal_of_hex_digits (h : String) (hne : h ≠ "")
    (hhex : ∀ c ∈ h.data, c ∈ hexDigits) :
    hexToDecimal ("0x" ++ h) = hexToDecimal h ∧ IsCanonicalDecimal (hexToDecimal h) ∧
      decimalValue (hexToDecimal h) = hexValue h := by
  have hd : h.data ≠ [] := fun e => hne (String.ext e)
  have hx : 'x' ∉ h.data := by
    intro hmem
    have := hhex 'x' hmem
    revert this
    decide
  have hset : setString h.data 16 = some (hexValue h : Int) := by
    rw [setString_digits 16 (by norm_num) h.data hd (fun c hc => (digitVal_hex c (hhex c hc)).2)]
    unfold hexValue
    rw [digitsValue_congr 16 digitVal hexDigitValue h.data
      (fun c hc => (digitVal_hex c (hhex c hc)).1)]
  have h1 : hexToDecimal h = String.mk (utoa (hexValue h + 1) (hexValue h)) := by
    unfold hexToDecimal
    rw [if_neg hne, trimPrefix_no_x h.data hx, hset]
    exact bigString_ofNat _
  have h2 : hexToDecimal ("0x" ++ h) = String.mk (utoa (hexValue h + 1) (hexValue h)) := by
    have hne2 : "0x" ++ h ≠ "" := by
      intro e
      have := congrArg String.data e
      simp at this
    have hdata : ("0x" ++ h).data = '0' :: 'x' :: h.data := by
      simp [String.data_append]
    unfold hexToDecimal
    rw [if_neg hne2, hdata, trimPrefix_0x, hset]
    exact bigString_ofNat _
  refine ⟨by rw [h1, h2], ?_, ?_⟩
  · rw [h1]
    exact utoa_canonical _
  · rw [h1]
    exact utoa_value _

/-- Witness for C1 at a value above the 64-bit range, `h = "10000000000000000"` (2^64), next
to the example `hexToDecimal "0x10" = "16"`. -/
theorem hexToDecimal_of_hex_digits_witness :
    (hexToDecimal ("0x" ++ "10000000000000000") = hexToDecimal "10000000000000000" ∧
      IsCanonicalDecimal (hexToDecimal "10000000000000000") ∧
      decimalValue (hexToDecimal "10000000000000000") = hexValue "10000000000000000") ∧
    hexValue "10000000000000000" = 2 ^ 64 ∧
    hexToDecimal "0x10000000000000000" = "18446744073709551616" ∧
    hexToDecimal "0x10" = "16" :=
  ⟨hexToDecimal_of_hex_digits "10000000000000000" (by decide) (by decide),
    by decide, by decide, by decide⟩

/-- C2, as stated, fails: `"-10"` is not an optional `0x` followed by hexadecimal digits, yet
`hexToDecimal "-10"` is `"-16"`, not `"0"` (the scanner of `big.Int` accepts a sign). -/
theorem hexToDecimal_sign_counterexample :
    isHexForm "-10" = false ∧ hexToDecimal "-10" = "-16" ∧ hexToDecimal "-10" ≠ "0" := by
  decide

/-- C2, amended: every string that is not an optional `0x`, then an optional sign, then one or
more hexadecimal digits is converted to `"0"`; the function is total, so no error is raised. -/
theorem hexToDecimal_malformed (s : String) (h : isSignedHexForm s = false) :
    hexToDecimal s = "0" := by
  unfold hexToDecimal
  by_cases hs : s = ""
  · rw [if_pos hs]
  · rw [if_neg hs]
    have hds : ∀ c, digitVal c < 16 → c ∈ hexDigits := mem_hexDigits_of_digitVal_lt
    unfold isSignedHexForm at h
    split at h
    · rename_i t heq
      rw [heq, trimPrefix_0x, setString_none_of_not_signed 16 hexDigits t hds h]
    · rename_i hno
      have htrim : trimPrefix s.data "0x".data = s.data := by
        unfold trimPrefix
        split
        · rename_i hp
          rw [List.isPrefixOf_iff_prefix] at hp
          obtain ⟨t, ht⟩ := hp
          exact absurd ht.symm (hno t)
        · rfl
      rw [htrim, setString_none_of_not_signed 16 hexDigits s.data hds h]

/-- Witness for the amended C2 at `"not-hex"`, at the empty string and at `"0x"` alone. -/
theorem hexToDecimal_malformed_witness :
    hexToDecimal "not-hex" = "0" ∧ hexToDecimal "" = "0" ∧ hexToDecimal "0x" = "0" :=
  ⟨hexToDecimal_malformed "not-hex" (by decide), hexToDecimal_malformed "" (by decide),
    hexToDecimal_malformed "0x" (by decide)⟩

/-- C3: when both arguments are base-10 integer literals, of any length,
`calculateTransactionFee` returns the canonical base-10 text of their exact integer product;
when either is not, it returns `"0"`. -/
theorem calculateTransactionFee_spec (p g : String) :
    (isDecimalLiteral p = true → isDecimalLiteral g = true →
      IsCanonicalInteger (calculateTransactionFee p g) ∧
        literalValue (calculateTransactionFee p g) = literalValue p * literalValue g) ∧
    (isDecimalLiteral p = false ∨ isDecimalLiteral g = false →
      calculateTransactionFee p g = "0") := by
  have hds : ∀ c, digitVal c < 10 → c ∈ decDigits := mem_decDigits_of_digitVal_lt
  constructor
  · intro hp hg
    unfold calculateTransactionFee
    rw [setString_decimal_literal p hp, setString_decimal_literal g hg]
    exact bigString_canonical _
  · intro hbad
    unfold calculateTransactionFee
    rcases hbad with hp | hg
    · rw [setString_none_of_not_signed 10 decDigits p.data hds hp]
    · rw [setString_none_of_not_signed 10 decDigits g.data hds hg]
      cases setString p.data 10 <;> rfl

/-- Witness for C3: the fee of 20 Gwei times 21000 gas, and a malformed operand. -/
theorem calculateTransactionFee_spec_witness :
    (IsCanonicalInteger (calculateTransactionFee "20000000000" "21000") ∧
      literalValue (calculateTransactionFee "20000000000" "21000") =
        literalValue "20000000000" * literalValue "21000") ∧
    calculateTransactionFee "20000000000" "21000" = "420000000000000" ∧
    calculateTransactionFee "0x10" "21000" = "0" :=
  ⟨(calculateTransactionFee_spec "20000000000" "21000").1 (by decide) (by decide),
    by decide,
    (calculateTransactionFee_spec "0x10" "21000").2 (Or.inl (by decide))⟩

/-! ## Subscription registry and transaction filter -/

theorem mapSet_same {V : Type} (m : String → Option V) (k : String) (v : V) (h : m k = some v) :
    mapSet m k v = m := by
  funext x
  unfold mapSet
  by_cases hx : x = k
  · rw [if_pos hx, hx, h]
  · rw [if_neg hx]

theorem unicodeToLower_low (c : Char) (h : c.toNat ≤ 0x17F) :
    unicodeToLower tail c = Char.ofNat (unicodeTo true c.toNat) :=
  if_pos h

theorem unicodeToUpper_low (c : Char) (h : c.toNat ≤ 0x17F) :
    unicodeToUpper tail c = Char.ofNat (unicodeTo false c.toNat) :=
  if_pos h

/-- On a string of code points up to U+017F the lower-case form does not depend on the tail. -/
theorem toLower_low (t₁ t₂ : CaseTail) (s : String) (h : ∀ c ∈ s.data, c.toNat ≤ 0x17F) :
    toLower t₁ s = toLower t₂ s := by
  unfold toLower
  congr 1
  apply List.map_congr_left
  intro c hc
  rw [unicodeToLower_low c (h c hc), unicodeToLower_low c (h c hc)]

/-- On a string of code points up to U+017F the upper-case form does not depend on the tail. -/
theorem toUpper_low (t₁ t₂ : CaseTail) (s : String) (h : ∀ c ∈ s.data, c.toNat ≤ 0x17F) :
    toUpper t₁ s = toUpper t₂ s := by
  unfold toUpper
  congr 1
  apply List.map_congr_left
  intro c hc
  rw [unicodeToUpper_low c (h c hc), unicodeToUpper_low c (h c hc)]

set_option maxRecDepth 100000 in
theorem lower_upper_ascii_code : ∀ n, n < 128 →
    (Char.ofNat (unicodeTo false n)).toNat ≤ 0x17F ∧
      Char.ofNat (unicodeTo true (Char.ofNat (unicodeTo false n)).toNat) =
        Char.ofNat (unicodeTo true n) := by
  decide

theorem toLower_toUpper_ascii (a : String) (h : ∀ c ∈ a.data, c.toNat < 128) :
    toLower tail (toUpper tail a) = toLower tail a := by
  unfold toLower toUpper
  congr 1
  rw [List.map_map]
  apply List.map_congr_left
  intro c hc
  have hlow : c.toNat ≤ 0x17F := by have := h c hc; omega
  obtain ⟨h1, h2⟩ := lower_upper_ascii_code c.toNat (h c hc)
  show unicodeToLower tail (unicodeToUpper tail c) = unicodeToLower tail c
  rw [unicodeToUpper_low c hlow, unicodeToLower_low _ h1, unicodeToLower_low c hlow, h2]

theorem parseTx_frame (ts bn : Int) (p : EthereumParser) (v : Value) :
    (parseTx tail ts bn p v).subscribedAddresses = p.subscribedAddresses ∧
      (parseTx tail ts bn p v).currentBlock = p.currentBlock := by
  cases v <;> simp only [parseTx, and_self]
  split_ifs <;> simp

theorem parseTx_obj (ts bn : Int) (p : EthereumParser) (r : Object) :
    parseTx tail ts bn p (.obj r) =
      fileTransaction p (recordFrom tail r) (recordTo tail r) (decodeTx tail ts bn r) :=
  rfl

theorem fileTransaction_slice (p : EthereumParser) (f t a : String) (tx : Transaction) :
    sliceOf (fileTransaction p f t tx).addressTransactions a =
      sliceOf p.addressTransactions a ++
        (if isSubscribed p a && (decide (a = f) || (decide (a = t) && decide (a ≠ "")))
          then [tx] else []) := by
  unfold fileTransaction isSubscribed
  by_cases haf : a = f <;>
  by_cases hat : a = t <;>
  by_cases hf : (p.subscribedAddresses f).isSome = true <;>
  by_cases ht : (p.subscribedAddresses t).isSome = true <;>
  by_cases hft : t = f <;>
  by_cases ht0 : t = "" <;>
  simp_all [sliceOf, mapSet]

theorem parseTx_slice (ts bn : Int) (p : EthereumParser) (v : Value) (a : String) :
    sliceOf (parseTx tail ts bn p v).addressTransactions a =
      sliceOf p.addressTransactions a ++ filedTx tail p ts bn a v := by
  cases v with
  | obj r =>
    rw [parseTx_obj, fileTransaction_slice]
    have e1 : decide (a = recordFrom tail r) = decide (recordFrom tail r = a) :=
      decide_eq_decide.2 eq_comm
    have e2 : decide (a = recordTo tail r) = decide (recordTo tail r = a) :=
      decide_eq_decide.2 eq_comm
    rw [e1, e2]
    rfl
  | _ => simp [parseTx, filedTx]

theorem filedTx_congr (p q : EthereumParser) (ts bn : Int) (a : String)
    (h : q.subscribedAddresses = p.subscribedAddresses) :
    filedTx tail q ts bn a = filedTx tail p ts bn a := by
  funext v
  cases v <;> simp [filedTx, filedUnder, isSubscribed, h]

theorem foldl_parseTx (ts bn : Int) (txs : List Value) (p : EthereumParser) (a : String) :
    (txs.foldl (parseTx tail ts bn) p).subscribedAddresses = p.subscribedAddresses ∧
      (txs.foldl (parseTx tail ts bn) p).currentBlock = p.currentBlock ∧
      sliceOf (txs.foldl (parseTx tail ts bn) p).addressTransactions a =
        sliceOf p.addressTransactions a ++ txs.flatMap (filedTx tail p ts bn a) := by
  induction txs generalizing p with
  | nil => simp
  | cons tx rest ih =>
    obtain ⟨h1, h2, h3⟩ := ih (parseTx tail ts bn p tx)
    obtain ⟨f1, f2⟩ := parseTx_frame ts bn p tx
    rw [List.foldl_cons]
    refine ⟨h1.trans f1, h2.trans f2, ?_⟩
    rw [h3, parseTx_slice, filedTx_congr p _ ts bn a f1, List.flatMap_cons, List.append_assoc]

theorem flatMap_filedTx (p : EthereumParser) (ts bn : Int) (a : String) (txs : List Value) :
    txs.flatMap (filedTx tail p ts bn a) =
      ((txs.filterMap (fun tx => match tx with
          | .obj txMap => some txMap
          | _ => none)).filter (filedUnder tail p a)).map (decodeTx tail ts bn) := by
  induction txs with
  | nil => rfl
  | cons tx rest ih =>
    rw [List.flatMap_cons, ih]
    cases tx with
    | obj r =>
      by_cases hr : filedUnder tail p a r = true
      · simp [filedTx, hr, List.filterMap_cons]
      · simp [filedTx, hr, List.filterMap_cons]
    | _ => simp [filedTx, List.filterMap_cons]

theorem parseBlock_frame (p : EthereumParser) (blk : Object) :
    (parseBlock tail p blk).subscribedAddresses = p.subscribedAddresses ∧
      (parseBlock tail p blk).currentBlock = p.currentBlock := by
  unfold parseBlock
  split
  · rename_i txs _
    obtain ⟨h1, h2, _⟩ := foldl_parseTx (ParseInt (trimPrefix (asString (blk.lookup "timestamp")).data "0x".data) 16).1
      (ParseInt (trimPrefix (asString (blk.lookup "number")).data "0x".data) 16).1 txs p ""
    exact ⟨h1, h2⟩
  · exact ⟨rfl, rfl⟩

theorem parseBlock_slice (p : EthereumParser) (blk : Object) (a : String) :
    sliceOf (parseBlock tail p blk).addressTransactions a =
      sliceOf p.addressTransactions a ++
        ((wellFormedRecords blk).filter (filedUnder tail p a)).map
          (decodeTx tail (blockTimestamp blk) (blockHeight blk)) := by
  unfold parseBlock wellFormedRecords
  split
  · rename_i txs _
    obtain ⟨_, _, h3⟩ := foldl_parseTx (blockTimestamp blk) (blockHeight blk) txs p a
    rw [← flatMap_filedTx]
    exact h3
  · simp

theorem subscribe_twice_members (p : EthereumParser) (a b k : String)
    (hempty : ∀ x, p.subscribedAddresses x = none) :
    isSubscribed (Subscribe tail (Subscribe tail p a).1 b).1 k = true ↔
      k = toLower tail a ∨ k = toLower tail b := by
  simp only [Subscribe, isSubscribed, mapSet, hempty]
  by_cases h1 : k = toLower tail b <;> by_cases h2 : k = toLower tail a <;> simp [h1, h2]

theorem parseBlock_count_filed (p : EthereumParser) (blk : Object) (a : String) :
    (sliceOf (parseBlock tail p blk).addressTransactions a).length =
      (sliceOf p.addressTransactions a).length +
        (wellFormedRecords blk).countP (filedUnder tail p a) := by
  rw [parseBlock_slice, List.length_append, List.length_map, List.countP_eq_length_filter]

theorem filedUnder_eq_touches (p : EthereumParser) (a : String)
    (ha : a ≠ "" ∨ isSubscribed p "" = false) : filedUnder tail p a = touches tail p a := by
  funext r
  rcases ha with ha | ha
  · simp [filedUnder, touches, ha]
  · by_cases h0 : a = ""
    · subst h0
      simp [filedUnder, touches, ha]
    · simp [filedUnder, touches, h0]

/-- C4, as stated, fails, whatever the case tables say above U+017F: for the address `"ı"`
(dotless i, U+0131) upper-casing gives `"I"`, whose lower-case form is `"i"`, so the two
subscriptions leave two entries, `"ı"` and `"i"`. -/
theorem subscribe_upper_counterexample :
    ¬ ∃ tail : CaseTail,
      ∀ k, isSubscribed (Subscribe tail (Subscribe tail (blankParser 0) "ı").1
          (toUpper tail "ı")).1 k = true ↔ k = toLower tail "ı" := by
  rintro ⟨tail, h⟩
  have hu : toUpper tail "ı" = "I" :=
    (toUpper_low tail idTail "ı" (by decide)).trans (by decide)
  have hl : toLower tail "I" = "i" :=
    (toLower_low tail idTail "I" (by decide)).trans (by decide)
  have hd : toLower tail "ı" = "ı" :=
    (toLower_low tail idTail "ı" (by decide)).trans (by decide)
  have h1 := (h "i").1
    ((subscribe_twice_members (blankParser 0) "ı" (toUpper tail "ı") "i" (fun _ => rfl)).2
      (Or.inr (by rw [hu, hl])))
  rw [hd] at h1
  revert h1
  decide

/-- C4, amended: `Subscribe a` followed by `Subscribe (UPPER a)` on an empty subscription set
leaves exactly one entry, the lower-case form of `a`, exactly when lower-casing undoes the
upper-casing of `a`, which is the case for every ASCII string; and subscribing an address whose
lower-case form is already in the set leaves the whole parser state unchanged. -/
theorem subscribe_case_insensitive (p : EthereumParser) (a : String) :
    ((∀ c ∈ a.data, c.toNat < 128) → toLower tail (toUpper tail a) = toLower tail a) ∧
    ((∀ k, p.subscribedAddresses k = none) →
      ((∀ k, isSubscribed (Subscribe tail (Subscribe tail p a).1 (toUpper tail a)).1 k = true ↔
          k = toLower tail a) ↔
        toLower tail (toUpper tail a) = toLower tail a)) ∧
    (p.subscribedAddresses (toLower tail a) = some true → (Subscribe tail p a).1 = p) := by
  refine ⟨toLower_toUpper_ascii a, ?_, ?_⟩
  · intro hempty
    constructor
    · intro h
      exact (h _).1 ((subscribe_twice_members p a _ _ hempty).2 (Or.inr rfl))
    · intro hlu k
      rw [subscribe_twice_members p a _ k hempty, hlu, or_self]
  · intro hmem
    simp only [Subscribe]
    rw [mapSet_same _ _ _ hmem]

/-- Witness for the amended C4 at the address `"0xTestAddress"`. -/
theorem subscribe_case_insensitive_witness :
    isSubscribed (Subscribe idTail (Subscribe idTail (blankParser 0) "0xTestAddress").1
        (toUpper idTail "0xTestAddress")).1 "0xtestaddress" = true ∧
    ¬ isSubscribed (Subscribe idTail (Subscribe idTail (blankParser 0) "0xTestAddress").1
        (toUpper idTail "0xTestAddress")).1 "0XTESTADDRESS" = true ∧
    (Subscribe idTail (Subscribe idTail (blankParser 0) "0xtestaddress").1 "0XTESTADDRESS").1 =
      (Subscribe idTail (blankParser 0) "0xtestaddress").1 :=
  ⟨(((@subscribe_case_insensitive idTail (blankParser 0) "0xTestAddress").2.1
      (fun _ => rfl)).2
      ((@subscribe_case_insensitive idTail (blankParser 0) "0xTestAddress").1 (by decide))
      "0xtestaddress").2 (by decide),
    fun h => absurd ((((@subscribe_case_insensitive idTail (blankParser 0) "0xTestAddress").2.1
      (fun _ => rfl)).2
      ((@subscribe_case_insensitive idTail (blankParser 0) "0xTestAddress").1 (by decide))
      "0XTESTADDRESS").1 h) (by decide),
    (@subscribe_case_insensitive idTail (Subscribe idTail (blankParser 0) "0xtestaddress").1
      "0XTESTADDRESS").2.2 (by decide)⟩

/-- C5: for an address `a` other than the empty string, and for every `a` when the empty
string is not subscribed, the entries `parseBlock` appends to the sequence of `a` are the
decoded well-formed records of the block for which `a` is subscribed and is the lower-cased
`from` or the lower-cased `to`, one entry for each such record, so their number is the number
of these records; in particular a block whose one well-formed record has `a` as both its
lower-cased `from` and `to` adds one copy of the transaction, not two. -/
theorem parseBlock_appended_count (p : EthereumParser) (blk : Object) (a : String)
    (ha : a ≠ "" ∨ isSubscribed p "" = false) :
    (sliceOf (parseBlock tail p blk).addressTransactions a).length =
        (sliceOf p.addressTransactions a).length +
          (wellFormedRecords blk).countP (touches tail p a) ∧
    sliceOf (parseBlock tail p blk).addressTransactions a =
        sliceOf p.addressTransactions a ++
          ((wellFormedRecords blk).filter (touches tail p a)).map
            (decodeTx tail (blockTimestamp blk) (blockHeight blk)) ∧
    (∀ r, wellFormedRecords blk = [r] → isSubscribed p a = true →
      recordFrom tail r = a → recordTo tail r = a →
      sliceOf (parseBlock tail p blk).addressTransactions a =
        sliceOf p.addressTransactions a ++
          [decodeTx tail (blockTimestamp blk) (blockHeight blk) r]) := by
  have hf := @filedUnder_eq_touches tail p a ha
  refine ⟨?_, ?_, ?_⟩
  · rw [parseBlock_count_filed, hf]
  · rw [parseBlock_slice, hf]
  · intro r hr hsub hfrom hto
    rw [parseBlock_slice, hr]
    simp [filedUnder, hsub, hfrom]

/-- Witness for C5: a self-transfer of the subscribed address `0xab` is filed once. -/
theorem parseBlock_appended_count_witness :
    (sliceOf (parseBlock idTail (Subscribe idTail (blankParser 0) "0xAB").1
        [("transactions", .arr [.obj [("from", .str "0xab"), ("to", .str "0xAB")]])]
        ).addressTransactions "0xab").length =
      (sliceOf (Subscribe idTail (blankParser 0) "0xAB").1.addressTransactions "0xab").length +
        (wellFormedRecords
          [("transactions", .arr [.obj [("from", .str "0xab"), ("to", .str "0xAB")]])]).countP
          (touches idTail (Subscribe idTail (blankParser 0) "0xAB").1 "0xab") ∧
    (wellFormedRecords
      [("transactions", .arr [.obj [("from", .str "0xab"), ("to", .str "0xAB")]])]).countP
      (touches idTail (Subscribe idTail (blankParser 0) "0xAB").1 "0xab") = 1 ∧
    sliceOf (parseBlock idTail (Subscribe idTail (blankParser 0) "0xAB").1
        [("transactions", .arr [.obj [("from", .str "0xab"), ("to", .str "0xAB")]])]
        ).addressTransactions "0xab" =
      [decodeTx idTail 0 0 [("from", .str "0xab"), ("to", .str "0xAB")]] :=
  ⟨(@parseBlock_appended_count idTail (Subscribe idTail (blankParser 0) "0xAB").1
      [("transactions", .arr [.obj [("from", .str "0xab"), ("to", .str "0xAB")]])] "0xab"
      (Or.inl (by decide))).1,
    by decide,
    (@parseBlock_appended_count idTail (Subscribe idTail (blankParser 0) "0xAB").1
      [("transactions", .arr [.obj [("from", .str "0xab"), ("to", .str "0xAB")]])] "0xab"
      (Or.inl (by decide))).2.2 [("from", .str "0xab"), ("to", .str "0xAB")] rfl (by decide)
      (by decide) (by decide)⟩

/-- C6: when the lower-cased `from` and `to` of the single well-formed record of a block are
two distinct non-empty subscribed addresses `A` and `B`, `parseBlock` appends exactly one entry
to the sequence of `A` and one to the sequence of `B`, and both are the same `Transaction`. -/
theorem parseBlock_transfer (p : EthereumParser) (blk r : Object) (A B : String)
    (hblk : blk.lookup "transactions" = some (.arr [.obj r]))
    (hfrom : recordFrom tail r = A) (hto : recordTo tail r = B)
    (hA : isSubscribed p A = true) (hB : isSubscribed p B = true)
    (_hAB : A ≠ B) (_hA0 : A ≠ "") (hB0 : B ≠ "") :
    sliceOf (parseBlock tail p blk).addressTransactions A =
        sliceOf p.addressTransactions A ++ [decodeTx tail (blockTimestamp blk) (blockHeight blk) r] ∧
    sliceOf (parseBlock tail p blk).addressTransactions B =
        sliceOf p.addressTransactions B ++ [decodeTx tail (blockTimestamp blk) (blockHeight blk) r] := by
  have hrec : wellFormedRecords blk = [r] := by
    simp [wellFormedRecords, hblk]
  constructor
  · rw [parseBlock_slice, hrec]
    simp [filedUnder, hA, hfrom]
  · rw [parseBlock_slice, hrec]
    simp [filedUnder, hB, hto, hB0]

/-- Witness for C6: a transfer from `0xAA` to `0xBb` with both addresses subscribed. -/
theorem parseBlock_transfer_witness :
    sliceOf (parseBlock idTail
        (Subscribe idTail (Subscribe idTail (blankParser 0) "0xAA").1 "0xBB").1
        [("transactions", .arr [.obj [("from", .str "0xAA"), ("to", .str "0xBb"),
          ("hash", .str "0x1"), ("gas", .str "0x5208")]]),
          ("timestamp", .str "0x10"), ("number", .str "0x2")]).addressTransactions "0xaa" =
      sliceOf (Subscribe idTail (Subscribe idTail (blankParser 0) "0xAA").1
          "0xBB").1.addressTransactions "0xaa" ++
        [decodeTx idTail 16 2 [("from", .str "0xAA"), ("to", .str "0xBb"), ("hash", .str "0x1"),
          ("gas", .str "0x5208")]] ∧
    sliceOf (parseBlock idTail
        (Subscribe idTail (Subscribe idTail (blankParser 0) "0xAA").1 "0xBB").1
        [("transactions", .arr [.obj [("from", .str "0xAA"), ("to", .str "0xBb"),
          ("hash", .str "0x1"), ("gas", .str "0x5208")]]),
          ("timestamp", .str "0x10"), ("number", .str "0x2")]).addressTransactions "0xbb" =
      sliceOf (Subscribe idTail (Subscribe idTail (blankParser 0) "0xAA").1
          "0xBB").1.addressTransactions "0xbb" ++
        [decodeTx idTail 16 2 [("from", .str "0xAA"), ("to", .str "0xBb"), ("hash", .str "0x1"),
          ("gas", .str "0x5208")]] :=
  @parseBlock_transfer idTail
    (Subscribe idTail (Subscribe idTail (blankParser 0) "0xAA").1 "0xBB").1
    [("transactions", .arr [.obj [("from", .str "0xAA"), ("to", .str "0xBb"),
      ("hash", .str "0x1"), ("gas", .str "0x5208")]]),
      ("timestamp", .str "0x10"), ("number", .str "0x2")]
    [("from", .str "0xAA"), ("to", .str "0xBb"), ("hash", .str "0x1"), ("gas", .str "0x5208")]
    "0xaa" "0xbb" rfl (by decide) (by decide) (by decide) (by decide) (by decide) (by decide)
    (by decide)

/-! ## The ingestion loop -/

theorem wrapInt64_of_range (x : Int) (h1 : -2 ^ 63 ≤ x) (h2 : x < 2 ^ 63) : wrapInt64 x = x := by
  unfold wrapInt64
  norm_num at *
  omega

theorem run_cons (m : Loop) (e : Event) (es : List Event) :
    run tail m (e :: es) = run tail (step tail m e) es := rfl

theorem run_append (m : Loop) (es1 es2 : List Event) :
    run tail m (es1 ++ es2) = run tail (run tail m es1) es2 := by
  simp [run, List.foldl_append]

theorem nextHeight_lt (b L : Int) (hb : -2 ^ 63 ≤ b) (hL : L < 2 ^ 63 - 1) (h : b < L) :
    nextHeight b L = .drain (b + 1) L := by
  unfold nextHeight
  rw [wrapInt64_of_range (b + 1) (by omega) (by omega)]
  simp only
  rw [if_pos (by omega)]

theorem nextHeight_eq (L : Int) (hb : -2 ^ 63 ≤ L) (hL : L < 2 ^ 63 - 1) :
    nextHeight L L = .poll := by
  unfold nextHeight
  rw [wrapInt64_of_range (L + 1) (by omega) (by omega)]
  simp only
  rw [if_neg (by omega)]

theorem nextHeight_inv (p : EthereumParser) (b L : Int) (hb : 0 ≤ b) (hbL : b ≤ L)
    (hL : L < 2 ^ 63 - 1) (hp : p.currentBlock = b) :
    LoopInv { parser := p, phase := nextHeight b L } := by
  have hr : heightInRange p.currentBlock := by
    rw [hp]
    exact ⟨hb, by omega⟩
  by_cases h : b < L
  · rw [nextHeight_lt b L (by omega) hL h]
    exact ⟨hr, by rw [hp]; omega, by omega, hL⟩
  · have : b = L := by omega
    subst this
    rw [nextHeight_eq b (by omega) hL]
    exact ⟨hr, trivial⟩

theorem step_inv (m : Loop) (e : Event) (hm : LoopInv m) (he : e.inRange) :
    LoopInv (step tail m e) ∧ m.parser.currentBlock ≤ (step tail m e).parser.currentBlock := by
  obtain ⟨p, ph⟩ := m
  obtain ⟨hr, hph⟩ := hm
  simp only at hr hph
  cases ph with
  | poll =>
    cases e with
    | latest r =>
      cases r with
      | error err => exact ⟨⟨hr, trivial⟩, le_refl _⟩
      | ok latestBlock =>
        simp only [step]
        have hw : wrapInt64 (p.currentBlock + 1) = p.currentBlock + 1 :=
          wrapInt64_of_range _ (by have := hr.1; omega) (by have := hr.2; omega)
        rw [hw]
        split_ifs with hgt
        · exact ⟨⟨hr, trivial⟩, le_refl _⟩
        · refine ⟨⟨hr, ?_, ?_, he⟩, le_refl _⟩
          · show p.currentBlock < p.currentBlock + 1
            omega
          · show p.currentBlock + 1 ≤ latestBlock
            omega
    | subscribe a => exact ⟨⟨hr, trivial⟩, le_refl _⟩
    | _ => exact ⟨⟨hr, trivial⟩, le_refl _⟩
  | backoff =>
    cases e with
    | subscribe a => exact ⟨⟨hr, trivial⟩, le_refl _⟩
    | _ => exact ⟨⟨hr, trivial⟩, le_refl _⟩
  | drain b L =>
    simp only at hph
    obtain ⟨h1, h2, h3⟩ := hph
    cases e with
    | block r =>
      cases r with
      | error err =>
        simp only [step]
        refine ⟨?_, le_refl _⟩
        by_cases h : b < L
        · rw [nextHeight_lt b L (by have := hr.1; omega) h3 h]
          refine ⟨hr, ?_, ?_, h3⟩
          · show p.currentBlock < b + 1
            omega
          · show b + 1 ≤ L
            omega
        · have : b = L := by omega
          subst this
          rw [nextHeight_eq b (by have := hr.1; omega) h3]
          exact ⟨hr, trivial⟩
      | ok blk =>
        simp only [step]
        refine ⟨nextHeight_inv _ b L (by have := hr.1; omega) h2 h3 rfl, ?_⟩
        show p.currentBlock ≤ b
        omega
    | subscribe a => exact ⟨⟨hr, h1, h2, h3⟩, le_refl _⟩
    | latest r => exact ⟨⟨hr, h1, h2, h3⟩, le_refl _⟩
    | wake => exact ⟨⟨hr, h1, h2, h3⟩, le_refl _⟩
    | getTransactions a => exact ⟨⟨hr, h1, h2, h3⟩, le_refl _⟩
    | getCurrentBlock => exact ⟨⟨hr, h1, h2, h3⟩, le_refl _⟩

theorem run_inv (es : List Event) (m : Loop) (hm : LoopInv m) (hes : ∀ e ∈ es, e.inRange) :
    LoopInv (run tail m es) ∧ m.parser.currentBlock ≤ (run tail m es).parser.currentBlock := by
  induction es generalizing m with
  | nil => exact ⟨hm, le_refl _⟩
  | cons e rest ih =>
    obtain ⟨h1, h2⟩ := step_inv m e hm (hes e (List.mem_cons_self _ _))
    obtain ⟨h3, h4⟩ := ih (step tail m e) h1 (fun x hx => hes x (List.mem_cons_of_mem _ hx))
    rw [run_cons]
    exact ⟨h3, le_trans h2 h4⟩

theorem newParser_ok (L : Int) (h0 : 0 ≤ L) (h1 : L < 2 ^ 63) :
    NewEthereumParser (.ok L) = some (blankParser (max 0 (L - 10000))) := by
  unfold NewEthereumParser blankParser
  simp only
  rw [wrapInt64_of_range (L - 10000) (by norm_num; omega) (by omega)]
  congr 2
  split_ifs with h
  · rw [max_eq_left (by omega)]
  · rw [max_eq_right (by omega)]

theorem start_inv (L0 : Int) (m0 : Loop) (hL0 : heightInRange L0)
    (hstart : start (.ok L0) = some m0) : LoopInv m0 := by
  unfold start at hstart
  rw [newParser_ok L0 hL0.1 (by have := hL0.2; omega)] at hstart
  simp only [Option.map_some', Option.some.injEq] at hstart
  subst hstart
  refine ⟨⟨?_, ?_⟩, trivial⟩
  · exact le_max_left _ _
  · simp only [blankParser]
    have := hL0.2
    rcases max_cases (0 : Int) (L0 - 10000) with ⟨h, _⟩ | ⟨h, _⟩ <;> rw [h] <;> omega

/-- C7: starting from the parser built at a startup height `L0` (a block height below
`2^63 - 1`), along every sequence of events (latest-height answers below `2^63 - 1` or errors,
failed or successful block fetches, ends of sleeps, `Subscribe`, `GetTransactions` and
`GetCurrentBlock` calls) the value of `GetCurrentBlock` observed after a prefix of the sequence
is at most the value observed after any longer prefix. -/
theorem currentBlock_never_decreases (L0 : Int) (m0 : Loop) (es1 es2 : List Event)
    (hL0 : heightInRange L0) (hstart : start (.ok L0) = some m0)
    (hes : ∀ e ∈ es1 ++ es2, e.inRange) :
    GetCurrentBlock (run tail m0 es1).parser ≤
      GetCurrentBlock (run tail m0 (es1 ++ es2)).parser := by
  have h0 := start_inv L0 m0 hL0 hstart
  obtain ⟨h1, _⟩ := run_inv es1 m0 h0 (fun e he => hes e (List.mem_append_left _ he))
  obtain ⟨_, h2⟩ := run_inv es2 (run tail m0 es1) h1 (fun e he => hes e (List.mem_append_right _ he))
  rw [run_append]
  exact h2

/-- Witness for C7: startup at height 20000, a poll that sees height 10002, a failed fetch of
block 10001, then a successful fetch of block 10002 between two queries. -/
theorem currentBlock_never_decreases_witness :
    GetCurrentBlock (run idTail { parser := blankParser 10000, phase := .poll }
        [.latest (.ok 10002), .block (.error "unavailable")]).parser ≤
      GetCurrentBlock (run idTail { parser := blankParser 10000, phase := .poll }
        ([.latest (.ok 10002), .block (.error "unavailable")] ++
          [.subscribe "0xAB", .block (.ok []), .getTransactions "0xab"])).parser :=
  @currentBlock_never_decreases idTail 20000 { parser := blankParser 10000, phase := .poll }
    [.latest (.ok 10002), .block (.error "unavailable")]
    [.subscribe "0xAB", .block (.ok []), .getTransactions "0xab"]
    (by decide) rfl
    (by
      intro e he
      simp only [List.cons_append, List.nil_append, List.mem_cons, List.mem_singleton,
        List.mem_nil_iff, or_false] at he
      rcases he with rfl | rfl | rfl | rfl | rfl
      · exact (by decide : (10002 : Int) < 2 ^ 63 - 1)
      all_goals trivial)

/-- C8, as stated, fails: in the pass over `[1, 2]` that follows startup at height 2, the fetch
of block 1 fails (the parser is untouched and the loop moves on to block 2), the fetch of
block 2 succeeds, and the progress counter ends at 2, above the unscanned height 1. -/
theorem drain_skips_failed_height_counterexample :
    (start (.ok 2)).map (fun m => (run idTail m [.latest (.ok 2)]).phase) = some (.drain 1 2) ∧
    (start (.ok 2)).map (fun m =>
        ((run idTail m [.latest (.ok 2), .block (.error "unavailable")]).phase,
          (run idTail m [.latest (.ok 2), .block (.error "unavailable")]).parser.currentBlock)) =
      some (.drain 2 2, 0) ∧
    (start (.ok 2)).map (fun m =>
        ((run idTail m [.latest (.ok 2), .block (.error "unavailable"), .block (.ok [])]).phase,
          (run idTail m [.latest (.ok 2), .block (.error "unavailable"),
            .block (.ok [])]).parser.currentBlock)) =
      some (.poll, 2) := by
  decide

theorem drain_run (L : Int) (hL : L < 2 ^ 63 - 1) (t : List (Except String Object)) :
    ∀ (r : Except String Object) (b : Int) (p : EthereumParser), -2 ^ 63 ≤ b →
      L - b = (t.length : Int) →
      (run tail { parser := p, phase := .drain b L } ((r :: t).map Event.block)).phase = .poll ∧
      ((∀ x ∈ r :: t, fetchFailed x = true) →
        (run tail { parser := p, phase := .drain b L } ((r :: t).map Event.block)).parser = p) ∧
      (∀ i (hi : i < (r :: t).length), fetchFailed (r :: t)[i] = false →
        (∀ j (hj : j < (r :: t).length), i < j → fetchFailed (r :: t)[j] = true) →
        (run tail { parser := p, phase := .drain b L }
          ((r :: t).map Event.block)).parser.currentBlock = b + i) := by
  induction t with
  | nil =>
    intro r b p hb hlen
    have hbL : b = L := by
      simp only [List.length_nil, Nat.cast_zero] at hlen
      omega
    subst hbL
    cases r with
    | error err =>
      simp only [List.map_cons, List.map_nil, run_cons, step, nextHeight_eq b hb hL]
      refine ⟨rfl, fun _ => rfl, ?_⟩
      intro i hi hok
      have : i = 0 := by
        simp only [List.length_singleton] at hi
        omega
      subst this
      exact absurd hok (by simp [fetchFailed])
    | ok blk =>
      simp only [List.map_cons, List.map_nil, run_cons, step, nextHeight_eq b hb hL]
      refine ⟨rfl, ?_, ?_⟩
      · intro hall
        exact absurd (hall _ (List.mem_cons_self _ _)) (by simp [fetchFailed])
      · intro i hi _ _
        have : i = 0 := by
          simp only [List.length_singleton] at hi
          omega
        subst this
        simp [run]
  | cons r2 t ih =>
    intro r b p hb hlen
    have hlt : b < L := by
      simp only [List.length_cons, Nat.cast_add, Nat.cast_one] at hlen
      omega
    have hlen2 : L - (b + 1) = (t.length : Int) := by
      simp only [List.length_cons, Nat.cast_add, Nat.cast_one] at hlen
      omega
    have hstep : run tail { parser := p, phase := .drain b L } ((r :: r2 :: t).map Event.block) =
        run tail (step tail { parser := p, phase := .drain b L } (.block r))
          ((r2 :: t).map Event.block) := rfl
    rw [hstep]
    have tail_failed : (∀ j (hj : j < (r :: r2 :: t).length), 0 < j →
        fetchFailed (r :: r2 :: t)[j] = true) → ∀ x ∈ r2 :: t, fetchFailed x = true := by
      intro hall x hx
      obtain ⟨n, hn, rfl⟩ := List.getElem_of_mem hx
      have := hall (n + 1) (by simp only [List.length_cons] at hn ⊢; omega) (by omega)
      simpa using this
    cases r with
    | error err =>
      have hs : step tail { parser := p, phase := .drain b L } (.block (.error err)) =
          { parser := p, phase := .drain (b + 1) L } := by
        simp only [step, nextHeight_lt b L hb hL hlt]
      rw [hs]
      obtain ⟨i1, i2, i3⟩ := ih r2 (b + 1) p (by omega) hlen2
      refine ⟨i1, ?_, ?_⟩
      · intro hall
        exact i2 (fun x hx => hall x (List.mem_cons_of_mem _ hx))
      · intro i hi hok hlater
        cases i with
        | zero => exact absurd hok (by simp [fetchFailed])
        | succ n =>
          have := i3 n (by simp only [List.length_cons] at hi ⊢; omega)
            (by simpa using hok)
            (fun j hj hnj => by
              have := hlater (j + 1) (by simp only [List.length_cons] at hj ⊢; omega) (by omega)
              simpa using this)
          rw [this]
          push_cast
          ring
    | ok blk =>
      have hs : step tail { parser := p, phase := .drain b L } (.block (.ok blk)) =
          { parser := { parseBlock tail p blk with currentBlock := b }, phase := .drain (b + 1) L } := by
        simp only [step, nextHeight_lt b L hb hL hlt]
      rw [hs]
      obtain ⟨i1, i2, i3⟩ := ih r2 (b + 1) { parseBlock tail p blk with currentBlock := b }
        (by omega) hlen2
      refine ⟨i1, ?_, ?_⟩
      · intro hall
        exact absurd (hall _ (List.mem_cons_self _ _)) (by simp [fetchFailed])
      · intro i hi hok hlater
        cases i with
        | zero =>
          rw [i2 (tail_failed (fun j hj hj0 => hlater j hj hj0))]
          simp
        | succ n =>
          have := i3 n (by simp only [List.length_cons] at hi ⊢; omega)
            (by simpa using hok)
            (fun j hj hnj => by
              have := hlater (j + 1) (by simp only [List.length_cons] at hj ⊢; omega) (by omega)
              simpa using this)
          rw [this]
          push_cast
          ring

/-- C8, amended: in one Drain pass over `[b, L]` a failed fetch leaves the parser state, and so
the progress counter, as it is, and the loop goes on to the next height; every later
successful fetch in the pass sets the counter to its height. At the end of the pass the loop is
back at Poll, and the counter is the greatest height of the range whose fetch succeeded (the
parser is unchanged if none did), so failed heights below it are left unscanned. -/
theorem drain_pass (p : EthereumParser) (b L : Int) (rs : List (Except String Object))
    (hb : -2 ^ 63 ≤ b) (hL : L < 2 ^ 63 - 1) (hlen : (rs.length : Int) = L - b + 1)
    (hne : rs ≠ []) :
    (∀ (m : Loop) (err : String), (step tail m (.block (.error err))).parser = m.parser) ∧
    (run tail { parser := p, phase := .drain b L } (rs.map Event.block)).phase = .poll ∧
    ((∀ x ∈ rs, fetchFailed x = true) →
      (run tail { parser := p, phase := .drain b L } (rs.map Event.block)).parser = p) ∧
    (∀ i (hi : i < rs.length), fetchFailed rs[i] = false →
      (∀ j (hj : j < rs.length), i < j → fetchFailed rs[j] = true) →
      (run tail { parser := p, phase := .drain b L }
        (rs.map Event.block)).parser.currentBlock = b + i) := by
  constructor
  · intro m err
    obtain ⟨q, ph⟩ := m
    cases ph <;> rfl
  · cases rs with
    | nil => exact absurd rfl hne
    | cons r t =>
      have hlen2 : L - b = (t.length : Int) := by
        simp only [List.length_cons, Nat.cast_add, Nat.cast_one] at hlen
        omega
      exact drain_run L hL t r b p hb hlen2

/-- Witness for the amended C8: the pass over `[1, 2]` with block 1 failing and block 2 found
ends at Poll with the counter at 2. -/
theorem drain_pass_witness :
    (run idTail { parser := blankParser 0, phase := .drain 1 2 }
        ([.error "unavailable", .ok []].map Event.block)).phase = .poll ∧
    (run idTail { parser := blankParser 0, phase := .drain 1 2 }
        ([.error "unavailable", .ok []].map Event.block)).parser.currentBlock =
      1 + ((1 : Nat) : Int) :=
  ⟨(@drain_pass idTail (blankParser 0) 1 2 [.error "unavailable", .ok []] (by decide) (by decide)
      (by decide) (by simp)).2.1,
    (@drain_pass idTail (blankParser 0) 1 2 [.error "unavailable", .ok []] (by decide) (by decide)
      (by decide) (by simp)).2.2.2 1 (by decide) rfl
      (fun j hj hij => by
        simp only [List.length_cons, List.length_nil] at hj
        omega)⟩

/-- C9: for a latest height `L` that is a non-negative 64-bit integer, `NewEthereumParser`
returns a parser with `currentBlock = max 0 (L - 10000)`, no subscription and an empty index. -/
theorem newParser_start (L : Int) (h0 : 0 ≤ L) (h1 : L < 2 ^ 63) :
    ∃ p, NewEthereumParser (.ok L) = some p ∧ p.currentBlock = max 0 (L - 10000) ∧
      (∀ a, p.subscribedAddresses a = none) ∧ (∀ a, p.addressTransactions a = none) :=
  ⟨blankParser (max 0 (L - 10000)), newParser_ok L h0 h1, rfl, fun _ => rfl, fun _ => rfl⟩

/-- Witness for C9 at the latest height 20000 (start at 10000). -/
theorem newParser_start_witness :
    ∃ p, NewEthereumParser (.ok 20000) = some p ∧ p.currentBlock = max 0 (20000 - 10000) ∧
      (∀ a, p.subscribedAddresses a = none) ∧ (∀ a, p.addressTransactions a = none) :=
  newParser_start 20000 (by decide) (by decide)

/-- C10, as stated, fails: with latest height 5 at startup and at the first poll the parser
starts at 0 and the poll finds `next = 1 ≤ 5`, so the loop enters Drain at block 1 instead of
going to Backoff. -/
theorem first_poll_height_five_counterexample :
    (start (.ok 5)).map
        (fun m => (m.parser.currentBlock, (step idTail m (.latest (.ok 5))).phase)) =
      some (0, .drain 1 5) ∧
    Phase.drain 1 5 ≠ Phase.backoff := by
  decide

/-- C10, amended: with the ledger reporting the same latest height `L` (in range) at startup
and at the first poll, the parser starts at `max 0 (L - 10000)`, the poll itself leaves the
parser state unchanged, and the loop goes to Backoff without fetching a block only for `L = 0`;
for every other `L`, in particular `L = 5`, it enters Drain over `[max 0 (L - 10000) + 1, L]`. -/
theorem first_poll (L : Int) (hL : heightInRange L) :
    ∃ m0, start (.ok L) = some m0 ∧ m0.parser.currentBlock = max 0 (L - 10000) ∧
      (∀ a, m0.parser.subscribedAddresses a = none) ∧
      (step tail m0 (.latest (.ok L))).parser = m0.parser ∧
      (step tail m0 (.latest (.ok L))).phase =
        (if L = 0 then Phase.backoff else Phase.drain (max 0 (L - 10000) + 1) L) := by
  obtain ⟨h0, h1⟩ := hL
  refine ⟨{ parser := blankParser (max 0 (L - 10000)), phase := .poll }, ?_, rfl, fun _ => rfl,
    ?_, ?_⟩
  · unfold start
    rw [newParser_ok L h0 (by omega)]
    rfl
  · simp only [step]
    split_ifs <;> rfl
  · have hcur : (blankParser (max 0 (L - 10000))).currentBlock = max 0 (L - 10000) := rfl
    have hw : wrapInt64 (max 0 (L - 10000) + 1) = max 0 (L - 10000) + 1 := by
      apply wrapInt64_of_range
      · rcases max_cases (0 : Int) (L - 10000) with ⟨h, _⟩ | ⟨h, _⟩ <;> rw [h] <;> omega
      · rcases max_cases (0 : Int) (L - 10000) with ⟨h, _⟩ | ⟨h, _⟩ <;> rw [h] <;> omega
    simp only [step, hcur, hw]
    by_cases hz : L = 0
    · subst hz
      simp
    · have hgt : ¬ max 0 (L - 10000) + 1 > L := by
        rcases max_cases (0 : Int) (L - 10000) with ⟨h, _⟩ | ⟨h, _⟩ <;> rw [h] <;> omega
      rw [if_neg hgt, if_neg hz]

/-- Witness for the amended C10 at the latest height 5: start at 0, then Drain over `[1, 5]`. -/
theorem first_poll_witness :
    ∃ m0, start (.ok 5) = some m0 ∧ m0.parser.currentBlock = max 0 (5 - 10000) ∧
      (∀ a, m0.parser.subscribedAddresses a = none) ∧
      (step idTail m0 (.latest (.ok 5))).parser = m0.parser ∧
      (step idTail m0 (.latest (.ok 5))).phase =
        (if (5 : Int) = 0 then Phase.backoff else Phase.drain (max 0 (5 - 10000) + 1) 5) :=
  @first_poll idTail 5 (by decide)

/-! ## Queries, subscription frame and block filtering -/

/-- C12: `GetTransactions a` returns exactly what the index stores under the lower-case form of
`a`, a query leaves the state of the system unchanged, and two queries whose addresses have the
same lower-case form return the same sequence, as do an ASCII address and its upper-case
form. -/
theorem getTransactions_spec (p : EthereumParser) (a b : String) :
    GetTransactions tail p a = p.addressTransactions (toLower tail a) ∧
    (∀ m : Loop, step tail m (.getTransactions a) = m) ∧
    (toLower tail a = toLower tail b → GetTransactions tail p a = GetTransactions tail p b) ∧
    ((∀ c ∈ a.data, c.toNat < 128) →
      GetTransactions tail p (toUpper tail a) = GetTransactions tail p a) := by
  refine ⟨rfl, ?_, ?_, ?_⟩
  · intro m
    obtain ⟨q, ph⟩ := m
    cases ph <;> rfl
  · intro h
    simp only [GetTransactions, h]
  · intro h
    simp only [GetTransactions, toLower_toUpper_ascii a h]

/-- Witness for C12, the scenario of `TestGetTransactions`: one transaction stored under the
lower-case form of `0xTestAddress` is returned for `0xTestAddress` and for `0XTESTADDRESS`. -/
theorem getTransactions_spec_witness :
    GetTransactions idTail
        { (Subscribe idTail (blankParser 0) "0xTestAddress").1 with
          addressTransactions := mapSet (fun _ => none) (toLower idTail "0xTestAddress")
            [{ Hash := "0xMockHash", From := "0xTestAddress", To := "0xAnotherAddress",
               Value := "1000000000000000000", GasPrice := "", GasUsed := "", BlockNumber := 1,
               Timestamp := 0, TransactionFee := "" }] }
        "0xTestAddress" =
      some [{ Hash := "0xMockHash", From := "0xTestAddress", To := "0xAnotherAddress",
              Value := "1000000000000000000", GasPrice := "", GasUsed := "", BlockNumber := 1,
              Timestamp := 0, TransactionFee := "" }] ∧
    GetTransactions idTail
        { (Subscribe idTail (blankParser 0) "0xTestAddress").1 with
          addressTransactions := mapSet (fun _ => none) (toLower idTail "0xTestAddress")
            [{ Hash := "0xMockHash", From := "0xTestAddress", To := "0xAnotherAddress",
               Value := "1000000000000000000", GasPrice := "", GasUsed := "", BlockNumber := 1,
               Timestamp := 0, TransactionFee := "" }] }
        "0xTestAddress" =
      GetTransactions idTail
        { (Subscribe idTail (blankParser 0) "0xTestAddress").1 with
          addressTransactions := mapSet (fun _ => none) (toLower idTail "0xTestAddress")
            [{ Hash := "0xMockHash", From := "0xTestAddress", To := "0xAnotherAddress",
               Value := "1000000000000000000", GasPrice := "", GasUsed := "", BlockNumber := 1,
               Timestamp := 0, TransactionFee := "" }] }
        "0XTESTADDRESS" :=
  ⟨by decide,
    (@getTransactions_spec idTail _ "0xTestAddress" "0XTESTADDRESS").2.2.1 (by decide)⟩

/-- C13: `Subscribe a` returns `true`, makes the lower-case form of `a` a member of the
subscription set, and changes nothing else: every other membership, the transaction index and
the progress counter are as before. -/
theorem subscribe_spec (p : EthereumParser) (a : String) :
    (Subscribe tail p a).2 = true ∧
    (Subscribe tail p a).1.subscribedAddresses (toLower tail a) = some true ∧
    (∀ k, k ≠ toLower tail a →
      (Subscribe tail p a).1.subscribedAddresses k = p.subscribedAddresses k) ∧
    (Subscribe tail p a).1.addressTransactions = p.addressTransactions ∧
    (Subscribe tail p a).1.currentBlock = p.currentBlock := by
  refine ⟨rfl, ?_, ?_, rfl, rfl⟩
  · simp [Subscribe, mapSet]
  · intro k hk
    simp [Subscribe, mapSet, hk]

/-- Witness for C13, the scenario of `TestSubscribe`: after `Subscribe "0xTestAddress"` the
lower-case form is a member, and the membership of another address is as before. -/
theorem subscribe_spec_witness :
    (Subscribe idTail (blankParser 0) "0xTestAddress").1.subscribedAddresses
        (toLower idTail "0xTestAddress") = some true ∧
    (Subscribe idTail (blankParser 0) "0xTestAddress").1.subscribedAddresses "0xother" =
      (blankParser 0).subscribedAddresses "0xother" :=
  ⟨(@subscribe_spec idTail (blankParser 0) "0xTestAddress").2.1,
    (@subscribe_spec idTail (blankParser 0) "0xTestAddress").2.2.1 "0xother" (by decide)⟩

theorem foldl_parseTx_filter (ts bn : Int) (txs : List Value) (p : EthereumParser) :
    (txs.filter isRecord).foldl (parseTx tail ts bn) p = txs.foldl (parseTx tail ts bn) p := by
  induction txs generalizing p with
  | nil => rfl
  | cons tx rest ih =>
    cases tx with
    | obj r =>
      simp only [List.filter_cons, isRecord, if_true, List.foldl_cons]
      exact ih _
    | _ =>
      simp only [List.filter_cons, isRecord, List.foldl_cons]
      exact ih _

/-- C17: a block whose `transactions` array holds elements of the wrong shape is processed to
exactly the same parser state as the block with those elements removed (same `timestamp` and
`number`): each malformed element is skipped and every record around it is still processed. -/
theorem parseBlock_skips_malformed (p : EthereumParser) (blk blk2 : Object) (txs : List Value)
    (htx : blk.lookup "transactions" = some (.arr txs))
    (htx2 : blk2.lookup "transactions" = some (.arr (txs.filter isRecord)))
    (hts : blk2.lookup "timestamp" = blk.lookup "timestamp")
    (hnum : blk2.lookup "number" = blk.lookup "number") :
    parseBlock tail p blk = parseBlock tail p blk2 := by
  simp only [parseBlock, htx, htx2, hts, hnum]
  exact (foldl_parseTx_filter _ _ txs p).symm

/-- Witness for C17: a string and a number between two records of a block. -/
theorem parseBlock_skips_malformed_witness :
    parseBlock idTail (Subscribe idTail (blankParser 0) "0xab").1
        [("transactions", .arr [.obj [("from", .str "0xAB")], .str "junk", .number 7,
          .obj [("to", .str "0xab")]]), ("timestamp", .str "0x10")] =
      parseBlock idTail (Subscribe idTail (blankParser 0) "0xab").1
        [("timestamp", .str "0x10"),
          ("transactions", .arr [.obj [("from", .str "0xAB")], .obj [("to", .str "0xab")]])] :=
  @parseBlock_skips_malformed idTail (Subscribe idTail (blankParser 0) "0xab").1
    [("transactions", .arr [.obj [("from", .str "0xAB")], .str "junk", .number 7,
      .obj [("to", .str "0xab")]]), ("timestamp", .str "0x10")]
    [("timestamp", .str "0x10"),
      ("transactions", .arr [.obj [("from", .str "0xAB")], .obj [("to", .str "0xab")]])]
    [.obj [("from", .str "0xAB")], .str "junk", .number 7, .obj [("to", .str "0xab")]]
    rfl rfl rfl rfl

theorem fileTransaction_index (p : EthereumParser) (f t a : String) (tx : Transaction) :
    (fileTransaction p f t tx).addressTransactions a =
      (if isSubscribed p a && (decide (a = f) || (decide (a = t) && decide (a ≠ "")))
        then some (sliceOf p.addressTransactions a ++ [tx]) else p.addressTransactions a) := by
  unfold fileTransaction isSubscribed
  by_cases haf : a = f <;>
  by_cases hat : a = t <;>
  by_cases hf : (p.subscribedAddresses f).isSome = true <;>
  by_cases ht : (p.subscribedAddresses t).isSome = true <;>
  by_cases hft : t = f <;>
  by_cases ht0 : t = "" <;>
  simp_all [sliceOf, mapSet]

theorem fileTransaction_untouched (p : EthereumParser) (f t : String) (tx : Transaction)
    (hf : isSubscribed p f = false) (ht : isSubscribed p t = false) :
    fileTransaction p f t tx = p := by
  unfold isSubscribed at hf ht
  simp [fileTransaction, hf, ht]

theorem foldl_parseTx_untouched (ts bn : Int) (txs : List Value) (p : EthereumParser)
    (h : ∀ r, Value.obj r ∈ txs →
      isSubscribed p (recordFrom tail r) = false ∧ isSubscribed p (recordTo tail r) = false) :
    txs.foldl (parseTx tail ts bn) p = p := by
  induction txs with
  | nil => rfl
  | cons tx rest ih =>
    have hstep : parseTx tail ts bn p tx = p := by
      cases tx with
      | obj r =>
        obtain ⟨h1, h2⟩ := h r (List.mem_cons_self _ _)
        rw [parseTx_obj, fileTransaction_untouched p _ _ _ h1 h2]
      | _ => rfl
    rw [List.foldl_cons, hstep]
    exact ih (fun r hr => h r (List.mem_cons_of_mem _ hr))

theorem mem_wellFormedRecords (blk : Object) (txs : List Value) (r : Object)
    (htx : blk.lookup "transactions" = some (.arr txs)) (hr : Value.obj r ∈ txs) :
    r ∈ wellFormedRecords blk := by
  simp only [wellFormedRecords, htx, List.mem_filterMap]
  exact ⟨.obj r, hr, rfl⟩

theorem filedAsStated_eq (p : EthereumParser) (a : String) :
    filedAsStated tail p a = filedUnder tail p a := by
  funext r
  unfold filedAsStated filedUnder
  by_cases hf : recordFrom tail r = a
  · simp [hf]
  · by_cases ht : recordTo tail r = a
    · have hne : ¬ a = recordFrom tail r := fun e => hf e.symm
      simp [hf, ht, hne]
    · simp [hf, ht]

/-- C18: after `parseBlock` the sequence of `a` is its former sequence followed by the decoded
transactions of the well-formed records of the block, in array order, for which `a` is
subscribed and is the lower-cased `from`, or is the lower-cased `to` with `to` non-empty and
different from `from`; the subscription set and the progress counter are unchanged, and a block
whose records touch no subscribed address leaves the whole index unchanged. -/
theorem parseBlock_appends (p : EthereumParser) (blk : Object) (a : String) :
    sliceOf (parseBlock tail p blk).addressTransactions a =
      sliceOf p.addressTransactions a ++
        ((wellFormedRecords blk).filter (filedAsStated tail p a)).map
          (decodeTx tail (blockTimestamp blk) (blockHeight blk)) ∧
    (parseBlock tail p blk).subscribedAddresses = p.subscribedAddresses ∧
    (parseBlock tail p blk).currentBlock = p.currentBlock ∧
    ((∀ r ∈ wellFormedRecords blk,
        isSubscribed p (recordFrom tail r) = false ∧ isSubscribed p (recordTo tail r) = false) →
      (parseBlock tail p blk).addressTransactions = p.addressTransactions) := by
  refine ⟨?_, (parseBlock_frame p blk).1, (parseBlock_frame p blk).2, ?_⟩
  · rw [filedAsStated_eq]
    exact parseBlock_slice p blk a
  · intro h
    unfold parseBlock
    split
    · rename_i txs htx
      rw [foldl_parseTx_untouched _ _ txs p
        (fun r hr => h r (mem_wellFormedRecords blk txs r htx hr))]
    · rfl

/-- Witness for C18: a block with a record between two strangers leaves the index as it is,
while the sequence of the subscribed `0xab` receives the transfer sent to it. -/
theorem parseBlock_appends_witness :
    (parseBlock idTail (Subscribe idTail (blankParser 0) "0xab").1
        [("transactions", .arr [.obj [("from", .str "0x01"), ("to", .str "0x02")]])]
        ).addressTransactions =
      (Subscribe idTail (blankParser 0) "0xab").1.addressTransactions ∧
    sliceOf (parseBlock idTail (Subscribe idTail (blankParser 0) "0xab").1
        [("transactions", .arr [.obj [("from", .str "0x01"), ("to", .str "0xAB")]])]
        ).addressTransactions "0xab" =
      [decodeTx idTail 0 0 [("from", .str "0x01"), ("to", .str "0xAB")]] :=
  ⟨(@parseBlock_appends idTail (Subscribe idTail (blankParser 0) "0xab").1
      [("transactions", .arr [.obj [("from", .str "0x01"), ("to", .str "0x02")]])] "0xab").2.2.2
      (by decide),
    (@parseBlock_appends idTail (Subscribe idTail (blankParser 0) "0xab").1
      [("transactions", .arr [.obj [("from", .str "0x01"), ("to", .str "0xAB")]])] "0xab").1⟩

/-- C19: a Poll iteration that learns a latest height `L` with `currentBlock + 1 > L`, or whose
latest-height fetch fails, leaves the parser state unchanged and moves the loop to Backoff, so
no block is fetched and `parseBlock` is not called; nothing is fetched during Backoff either,
and the end of the sleep leads back to Poll. -/
theorem poll_without_new_blocks (p : EthereumParser) (L : Int) :
    (wrapInt64 (p.currentBlock + 1) > L →
      step tail { parser := p, phase := .poll } (.latest (.ok L)) =
        { parser := p, phase := .backoff }) ∧
    (-2 ^ 63 ≤ p.currentBlock → p.currentBlock < 2 ^ 63 - 1 →
      wrapInt64 (p.currentBlock + 1) = p.currentBlock + 1) ∧
    (∀ err, step tail { parser := p, phase := .poll } (.latest (.error err)) =
      { parser := p, phase := .backoff }) ∧
    (∀ r, step tail { parser := p, phase := .backoff } (.block r) =
      { parser := p, phase := .backoff }) ∧
    step tail { parser := p, phase := .backoff } .wake = { parser := p, phase := .poll } := by
  refine ⟨?_, ?_, fun _ => rfl, fun _ => rfl, rfl⟩
  · intro h
    simp only [step]
    rw [if_pos h]
  · intro h1 h2
    exact wrapInt64_of_range _ (by omega) (by omega)

/-- Witness for C19: at height 7 a poll that sees the latest height 7 goes to Backoff. -/
theorem poll_without_new_blocks_witness :
    step idTail { parser := blankParser 7, phase := .poll } (.latest (.ok 7)) =
      { parser := blankParser 7, phase := .backoff } ∧
    wrapInt64 ((blankParser 7).currentBlock + 1) = (blankParser 7).currentBlock + 1 :=
  ⟨(@poll_without_new_blocks idTail (blankParser 7) 7).1 (by decide),
    (@poll_without_new_blocks idTail (blankParser 7) 7).2.1 (by decide) (by decide)⟩

/-! ## Recorded amounts -/

theorem bigString_isDecimalLiteral (z : Int) : isDecimalLiteral (bigString z) = true := by
  obtain ⟨h1, h2, _⟩ := utoa_spec (z.natAbs + 1) z.natAbs (Nat.lt_succ_self _)
  unfold isDecimalLiteral
  by_cases hz : z < 0
  · have hdata : (bigString z).data = '-' :: utoa (z.natAbs + 1) z.natAbs := by
      simp [bigString, hz]
    rw [hdata]
    simp only [signedDigits, true_or, if_true]
    exact plainDigits_of_mem _ _ h1 h2
  · have hdata : (bigString z).data = utoa (z.natAbs + 1) z.natAbs := by
      simp [bigString, hz]
    obtain ⟨c, t, hu, hc1, hc2⟩ := utoa_head_not_sign z.natAbs
    rw [hdata, hu]
    simp only [signedDigits, hc1, hc2, or_self, if_false]
    rw [← hu]
    exact plainDigits_of_mem _ _ h1 h2

theorem setString_bigString (z : Int) : setString (bigString z).data 10 = some z := by
  rw [setString_decimal_literal _ (bigString_isDecimalLiteral z), (bigString_canonical z).2]

theorem hexToDecimal_eq_bigString (s : String) : ∃ z : Int, hexToDecimal s = bigString z := by
  unfold hexToDecimal
  split_ifs
  · exact ⟨0, by decide⟩
  · split
    · exact ⟨0, by decide⟩
    · rename_i value _
      exact ⟨value, rfl⟩

theorem fee_of_hexToDecimal (g u : String) :
    ∃ x y : Int, hexToDecimal g = bigString x ∧ hexToDecimal u = bigString y ∧
      calculateTransactionFee (hexToDecimal g) (hexToDecimal u) = bigString (x * y) := by
  obtain ⟨x, hx⟩ := hexToDecimal_eq_bigString g
  obtain ⟨y, hy⟩ := hexToDecimal_eq_bigString u
  refine ⟨x, y, hx, hy, ?_⟩
  unfold calculateTransactionFee
  rw [hx, hy, setString_bigString, setString_bigString]

theorem decodeTx_amounts (ts bn : Int) (r : Object) : DecimalAmounts (decodeTx tail ts bn r) := by
  obtain ⟨v, hv⟩ := hexToDecimal_eq_bigString (asString (r.lookup "value"))
  obtain ⟨x, y, hx, hy, hfee⟩ :=
    fee_of_hexToDecimal (asString (r.lookup "gasPrice")) (asString (r.lookup "gas"))
  unfold DecimalAmounts decodeTx
  simp only
  rw [hfee, hv, hx, hy, setString_bigString, setString_bigString]
  exact ⟨(bigString_canonical v).1, (bigString_canonical x).1, (bigString_canonical y).1,
    (bigString_canonical (x * y)).1, rfl, rfl, by
      rw [(bigString_canonical (x * y)).2, (bigString_canonical x).2, (bigString_canonical y).2]⟩

/-- C14: whatever the `value`, `gasPrice` and `gas` fields of a record hold, the transaction
decoded from it has `Value`, `GasPrice` and `GasUsed` in canonical base-10 text, both operands
of the fee parse, and `TransactionFee` is the canonical base-10 text of the exact product of
the recorded `GasPrice` and `GasUsed`; and every entry `parseBlock` appends to a sequence is
such a decoded transaction. -/
theorem recorded_amounts_decimal (p : EthereumParser) (blk : Object) (a : String)
    (ts bn : Int) (r : Object) :
    DecimalAmounts (decodeTx tail ts bn r) ∧
    sliceOf (parseBlock tail p blk).addressTransactions a =
      sliceOf p.addressTransactions a ++
        ((wellFormedRecords blk).filter (filedUnder tail p a)).map
          (decodeTx tail (blockTimestamp blk) (blockHeight blk)) :=
  ⟨decodeTx_amounts ts bn r, parseBlock_slice p blk a⟩

/-! ## Decoding of the block fields -/

theorem parseUintLoop_cons (base cutoff maxVal : Nat) (c : Char) (rest : List Char) (n : Nat) :
    parseUintLoop base cutoff maxVal (c :: rest) n =
      match uintDigit base c.toNat with
      | none => (0, some .errSyntax)
      | some d =>
        if n ≥ cutoff then (maxVal, some .errRange)
        else if (n * base + d) % 2 ^ 64 < n * base ∨ (n * base + d) % 2 ^ 64 > maxVal then
          (maxVal, some .errRange)
        else parseUintLoop base cutoff maxVal rest ((n * base + d) % 2 ^ 64) := by
  simp only [parseUintLoop, uintDigit]
  split_ifs <;> dsimp only <;> split_ifs <;> rfl

theorem uintDigit_hex : ∀ c ∈ hexDigits, uintDigit 16 c.toNat = some (hexDigitValue c) ∧
    hexDigitValue c < 16 := by
  decide

set_option maxRecDepth 100000 in
theorem uintDigit_ascii : ∀ n, n < 128 → (uintDigit 16 n).isSome = true →
    Char.ofNat n ∈ hexDigits := by
  decide

theorem byteLower_ge (n : Nat) (h : 128 ≤ n) : 128 ≤ byteLower n := by
  unfold byteLower
  have h1 : (n ||| 0x20) / 2 / 2 / 2 / 2 / 2 / 2 / 2 = n / 2 / 2 / 2 / 2 / 2 / 2 / 2 := by
    simp only [Nat.or_div_two]
    norm_num
  omega

theorem uintDigit_not_hex (c : Char) (h : c ∉ hexDigits) : uintDigit 16 c.toNat = none := by
  by_cases hlt : c.toNat < 128
  · cases hd : uintDigit 16 c.toNat with
    | none => rfl
    | some d =>
      have := uintDigit_ascii c.toNat hlt (by rw [hd]; rfl)
      rw [Char.ofNat_toNat] at this
      exact absurd this h
  · have hle := byteLower_ge c.toNat (by omega)
    unfold uintDigit
    simp only [Char.reduceToNat]
    rw [if_neg (by omega), if_neg (by omega)]


theorem parseUintLoop_digits (l : List Char) (n : Nat) (hl : ∀ c ∈ l, c ∈ hexDigits)
    (hlt : n * 16 ^ l.length + digitsValue 16 hexDigitValue l < 2 ^ 64) :
    parseUintLoop 16 (2 ^ 60) (2 ^ 64 - 1) l n =
      (n * 16 ^ l.length + digitsValue 16 hexDigitValue l, none) := by
  induction l generalizing n with
  | nil => simp [parseUintLoop, digitsValue]
  | cons c t ih =>
    obtain ⟨hd, hd16⟩ := uintDigit_hex c (hl c (List.mem_cons_self _ _))
    have hpow : 1 ≤ 16 ^ t.length := Nat.one_le_pow _ _ (by norm_num)
    have h16 : 16 ^ (t.length + 1) = 16 ^ t.length * 16 := pow_succ 16 t.length
    simp only [List.length_cons, digitsValue, h16] at hlt ⊢
    have h1 : n * 16 + hexDigitValue c ≤ (n * 16 + hexDigitValue c) * 16 ^ t.length :=
      Nat.le_mul_of_pos_right _ hpow
    have h2 : (n * 16 + hexDigitValue c) * 16 ^ t.length =
        n * (16 ^ t.length * 16) + hexDigitValue c * 16 ^ t.length := by ring
    have hsmall : n * 16 + hexDigitValue c < 2 ^ 64 := by omega
    rw [parseUintLoop_cons, hd]
    simp only
    have hn : ¬ n ≥ 2 ^ 60 := by
      norm_num at hsmall ⊢
      omega
    rw [if_neg hn, Nat.mod_eq_of_lt hsmall]
    rw [if_neg (by norm_num at hsmall ⊢; omega)]
    rw [ih (n * 16 + hexDigitValue c) (fun x hx => hl x (List.mem_cons_of_mem _ hx)) (by omega)]
    congr 1
    omega

theorem parseUintLoop_bad_char (ds : List Char) (c : Char) (rest : List Char) (n : Nat)
    (hds : ∀ x ∈ ds, x ∈ hexDigits) (hc : c ∉ hexDigits)
    (hlt : n * 16 ^ ds.length + digitsValue 16 hexDigitValue ds < 2 ^ 64) :
    parseUintLoop 16 (2 ^ 60) (2 ^ 64 - 1) (ds ++ c :: rest) n = (0, some .errSyntax) := by
  induction ds generalizing n with
  | nil =>
    rw [List.nil_append, parseUintLoop_cons, uintDigit_not_hex c hc]
  | cons d t ih =>
    obtain ⟨hd, hd16⟩ := uintDigit_hex d (hds d (List.mem_cons_self _ _))
    have hpow : 1 ≤ 16 ^ t.length := Nat.one_le_pow _ _ (by norm_num)
    have h16 : 16 ^ (t.length + 1) = 16 ^ t.length * 16 := pow_succ 16 t.length
    simp only [List.length_cons, digitsValue, h16] at hlt
    have h1 : n * 16 + hexDigitValue d ≤ (n * 16 + hexDigitValue d) * 16 ^ t.length :=
      Nat.le_mul_of_pos_right _ hpow
    have h2 : (n * 16 + hexDigitValue d) * 16 ^ t.length =
        n * (16 ^ t.length * 16) + hexDigitValue d * 16 ^ t.length := by ring
    have hsmall : n * 16 + hexDigitValue d < 2 ^ 64 := by omega
    rw [List.cons_append, parseUintLoop_cons, hd]
    simp only
    have hn : ¬ n ≥ 2 ^ 60 := by
      norm_num at hsmall ⊢
      omega
    rw [if_neg hn, Nat.mod_eq_of_lt hsmall]
    rw [if_neg (by norm_num at hsmall ⊢; omega)]
    exact ih (n * 16 + hexDigitValue d) (fun x hx => hds x (List.mem_cons_of_mem _ hx))
      (by omega)

theorem parseUintLoop_overflow (l : List Char) (n : Nat) (hl : ∀ c ∈ l, c ∈ hexDigits)
    (hn : n < 2 ^ 64) (hge : 2 ^ 64 ≤ n * 16 ^ l.length + digitsValue 16 hexDigitValue l) :
    parseUintLoop 16 (2 ^ 60) (2 ^ 64 - 1) l n = (2 ^ 64 - 1, some .errRange) := by
  induction l generalizing n with
  | nil =>
    simp only [List.length_nil, pow_zero, mul_one, digitsValue, add_zero] at hge
    omega
  | cons c t ih =>
    obtain ⟨hd, hd16⟩ := uintDigit_hex c (hl c (List.mem_cons_self _ _))
    have h16 : 16 ^ (t.length + 1) = 16 ^ t.length * 16 := pow_succ 16 t.length
    simp only [List.length_cons, digitsValue, h16] at hge
    have h2 : (n * 16 + hexDigitValue c) * 16 ^ t.length =
        n * (16 ^ t.length * 16) + hexDigitValue c * 16 ^ t.length := by ring
    rw [parseUintLoop_cons, hd]
    simp only
    by_cases hcut : n ≥ 2 ^ 60
    · rw [if_pos hcut]
    · have hsmall : n * 16 + hexDigitValue c < 2 ^ 64 := by
        norm_num at hcut ⊢
        omega
      rw [if_neg hcut, Nat.mod_eq_of_lt hsmall]
      rw [if_neg (by norm_num at hsmall ⊢; omega)]
      exact ih (n * 16 + hexDigitValue c) (fun x hx => hl x (List.mem_cons_of_mem _ hx))
        hsmall (by omega)

theorem parseInt_cons (c : Char) (u : List Char) :
    ParseInt (c :: u) 16 =
      (let neg : Bool := decide (c = '-')
       let r := ParseUint (stripSign (c :: u)) 16
       if r.2 = some .errSyntax then (0, r.2)
       else if !neg ∧ r.1 ≥ 2 ^ 63 then (((2 ^ 63 : Nat) : Int) - 1, some .errRange)
       else if neg ∧ r.1 > 2 ^ 63 then (-((2 ^ 63 : Nat) : Int), some .errRange)
       else (if neg then -(r.1 : Int) else (r.1 : Int), none)) := by
  simp [ParseInt, stripSign]

theorem parseUint_eq (s : List Char) (h : s ≠ []) :
    ParseUint s 16 = parseUintLoop 16 (2 ^ 60) (2 ^ 64 - 1) s 0 := by
  unfold ParseUint
  rw [if_neg h]
  have hcut : (2 ^ 64 - 1) / 16 + 1 = 2 ^ 60 := by norm_num
  rw [hcut]

theorem parseInt_malformed (t : List Char)
    (h : stripSign t = [] ∨ ∃ ds c rest, stripSign t = ds ++ c :: rest ∧
      (∀ x ∈ ds, x ∈ hexDigits) ∧ c ∉ hexDigits ∧ digitsValue 16 hexDigitValue ds < 2 ^ 64) :
    ParseInt t 16 = (0, some .errSyntax) := by
  cases t with
  | nil => rfl
  | cons c u =>
    have hr : ParseUint (stripSign (c :: u)) 16 = (0, some .errSyntax) := by
      rcases h with h | ⟨ds, x, rest, hs, hds, hx, hv⟩
      · rw [h]
        rfl
      · rw [hs, parseUint_eq _ (by simp)]
        exact parseUintLoop_bad_char ds x rest 0 hds hx (by simpa using hv)
    rw [parseInt_cons, hr]
    rfl

theorem parseInt_overflow (t : List Char) (hne : t ≠ []) (hl : ∀ x ∈ t, x ∈ hexDigits)
    (hv : 2 ^ 63 ≤ digitsValue 16 hexDigitValue t) :
    ParseInt t 16 = (2 ^ 63 - 1, some .errRange) := by
  cases t with
  | nil => exact absurd rfl hne
  | cons c u =>
    have hc := hl c (List.mem_cons_self _ _)
    have hc1 : c ≠ '-' := by
      rintro rfl
      revert hc
      decide
    have hc2 : c ≠ '+' := by
      rintro rfl
      revert hc
      decide
    have hstrip : stripSign (c :: u) = c :: u := by simp [stripSign, hc1, hc2]
    have hr : (ParseUint (c :: u) 16).2 ≠ some .errSyntax ∧
        2 ^ 63 ≤ (ParseUint (c :: u) 16).1 := by
      rw [parseUint_eq _ (by simp)]
      by_cases hlt : digitsValue 16 hexDigitValue (c :: u) < 2 ^ 64
      · rw [parseUintLoop_digits (c :: u) 0 hl (by simpa using hlt)]
        simp only [zero_mul, zero_add]
        exact ⟨by simp, hv⟩
      · rw [parseUintLoop_overflow (c :: u) 0 hl (by norm_num) (by simpa using hlt)]
        exact ⟨by simp, by norm_num⟩
    rw [parseInt_cons, hstrip]
    simp only [hc1, decide_False, Bool.not_false, true_and, Bool.false_eq_true, false_and,
      if_false]
    rw [if_neg hr.1, if_pos hr.2]
    norm_num

/-- C16, as stated, fails for a value outside the signed 64-bit range: a block whose
`timestamp` is `0xffffffffffffffffff` records the transactions with `Timestamp`
`9223372036854775807`, the bound returned by `strconv.ParseInt` with its range error, not 0;
the same holds for `number` and `BlockNumber`. -/
theorem parseBlock_field_overflow_counterexample :
    (sliceOf (parseBlock idTail (Subscribe idTail (blankParser 0) "0xab").1
        [("transactions", .arr [.obj [("from", .str "0xab")]]),
          ("timestamp", .str "0xffffffffffffffffff"),
          ("number", .str "0xffffffffffffffffff")]).addressTransactions "0xab").map
      (fun tx => (tx.Timestamp, tx.BlockNumber)) =
      [(9223372036854775807, 9223372036854775807)] := by
  decide

/-- C16, amended: whatever the `timestamp` and `number` fields hold, the records of the block
are filtered and filed as usual, every recorded transaction carrying the decoded timestamp
and height of the block. A field that is missing, no string, empty, `0x` alone, a sign alone,
or has a non-hexadecimal character after hexadecimal digits of value below `2^64`, decodes to
0; a field of hexadecimal digits whose value is above the signed 64-bit range decodes to
`2^63 - 1`. -/
theorem parseBlock_undecodable_fields (p : EthereumParser) (blk : Object) (a : String) :
    sliceOf (parseBlock tail p blk).addressTransactions a =
      sliceOf p.addressTransactions a ++
        ((wellFormedRecords blk).filter (filedUnder tail p a)).map
          (decodeTx tail (blockTimestamp blk) (blockHeight blk)) ∧
    (∀ ts bn r, (decodeTx tail ts bn r).Timestamp = ts ∧ (decodeTx tail ts bn r).BlockNumber = bn) ∧
    (MalformedHex (fieldText blk "timestamp") → blockTimestamp blk = 0) ∧
    (MalformedHex (fieldText blk "number") → blockHeight blk = 0) ∧
    (OverflowingHex (fieldText blk "timestamp") → blockTimestamp blk = 2 ^ 63 - 1) ∧
    (OverflowingHex (fieldText blk "number") → blockHeight blk = 2 ^ 63 - 1) := by
  refine ⟨parseBlock_slice p blk a, fun _ _ _ => ⟨rfl, rfl⟩, ?_, ?_, ?_, ?_⟩
  · intro h
    unfold MalformedHex fieldText at h
    unfold blockTimestamp
    rw [parseInt_malformed _ h]
  · intro h
    unfold MalformedHex fieldText at h
    unfold blockHeight
    rw [parseInt_malformed _ h]
  · intro h
    unfold OverflowingHex fieldText at h
    unfold blockTimestamp
    rw [parseInt_overflow _ h.1 h.2.1 h.2.2]
  · intro h
    unfold OverflowingHex fieldText at h
    unfold blockHeight
    rw [parseInt_overflow _ h.1 h.2.1 h.2.2]

/-- Witness for the amended C16: a block without `timestamp` and with the `number` `0xzz`, and
a block whose `timestamp` is `0xffffffffffffffffff`. -/
theorem parseBlock_undecodable_fields_witness :
    blockTimestamp [("transactions", .arr []), ("number", .str "0xzz")] = 0 ∧
    blockHeight [("transactions", .arr []), ("number", .str "0xzz")] = 0 ∧
    blockTimestamp [("timestamp", .str "0xffffffffffffffffff")] = 2 ^ 63 - 1 :=
  ⟨(@parseBlock_undecodable_fields idTail (blankParser 0)
      [("transactions", .arr []), ("number", .str "0xzz")] "").2.2.1 (Or.inl rfl),
    (@parseBlock_undecodable_fields idTail (blankParser 0)
      [("transactions", .arr []), ("number", .str "0xzz")] "").2.2.2.1
      (Or.inr ⟨[], 'z', ['z'], rfl, by simp, by decide, by decide⟩),
    (@parseBlock_undecodable_fields idTail (blankParser 0)
      [("timestamp", .str "0xffffffffffffffffff")] "").2.2.2.2.1
      ⟨by decide, by decide, by decide⟩⟩

/-! ## Reachable states -/

theorem newParser_blank (L : Int) (p0 : EthereumParser)
    (h0 : NewEthereumParser (.ok L) = some p0) :
    p0.subscribedAddresses = (fun _ => none) ∧ p0.addressTransactions = (fun _ => none) := by
  simp only [NewEthereumParser, Option.some.injEq] at h0
  subst h0
  exact ⟨rfl, rfl⟩

theorem fileTransaction_frame (p : EthereumParser) (f t : String) (tx : Transaction) :
    (fileTransaction p f t tx).subscribedAddresses = p.subscribedAddresses := by
  unfold fileTransaction
  split_ifs <;> rfl

theorem mem_sliceOf (m : String → Option (List Transaction)) (a : String) (x : Transaction)
    (hx : x ∈ sliceOf m a) : ∃ l, m a = some l ∧ x ∈ l := by
  unfold sliceOf at hx
  cases hm : m a with
  | none =>
    rw [hm] at hx
    simp at hx
  | some l =>
    rw [hm] at hx
    exact ⟨l, rfl, hx⟩

theorem fileTransaction_inv (p : EthereumParser) (f t : String) (tx : Transaction)
    (hp : IndexInv tail p) (hf : tx.From = f) (ht : tx.To = t) (hlf : IsLowerCase tail f)
    (hlt : IsLowerCase tail t) : IndexInv tail (fileTransaction p f t tx) := by
  obtain ⟨hp1, hp2⟩ := hp
  have hsub : ∀ k, isSubscribed (fileTransaction p f t tx) k = isSubscribed p k := by
    intro k
    unfold isSubscribed
    rw [fileTransaction_frame]
  refine ⟨fun k hk => hp1 k (by rw [← hsub]; exact hk), ?_⟩
  intro a l hl
  rw [fileTransaction_index] at hl
  rw [hsub]
  by_cases hc : (isSubscribed p a && (decide (a = f) || (decide (a = t) && decide (a ≠ "")))) = true
  · rw [if_pos hc] at hl
    simp only [Option.some.injEq] at hl
    subst hl
    simp only [Bool.and_eq_true, Bool.or_eq_true, decide_eq_true_eq] at hc
    refine ⟨hc.1, ?_⟩
    intro x hx
    rcases List.mem_append.1 hx with hx | hx
    · obtain ⟨l0, hl0, hx0⟩ := mem_sliceOf _ _ _ hx
      exact (hp2 a l0 hl0).2 x hx0
    · rw [List.mem_singleton] at hx
      subst hx
      refine ⟨?_, by rw [hf]; exact hlf, by rw [ht]; exact hlt⟩
      rcases hc.2 with h | h
      · exact Or.inl (by rw [hf, h])
      · exact Or.inr (by rw [ht, h.1])
  · rw [if_neg hc] at hl
    exact hp2 a l hl

theorem parseTx_inv (ts bn : Int) (p : EthereumParser) (v : Value) (hp : IndexInv tail p) :
    IndexInv tail (parseTx tail ts bn p v) := by
  cases v with
  | obj r =>
    rw [parseTx_obj]
    exact fileTransaction_inv p _ _ _ hp rfl rfl ⟨_, rfl⟩ ⟨_, rfl⟩
  | _ => exact hp

theorem foldl_parseTx_inv (ts bn : Int) (txs : List Value) (p : EthereumParser)
    (hp : IndexInv tail p) : IndexInv tail (txs.foldl (parseTx tail ts bn) p) := by
  induction txs generalizing p with
  | nil => exact hp
  | cons tx rest ih => exact ih _ (parseTx_inv ts bn p tx hp)

theorem parseBlock_inv (p : EthereumParser) (blk : Object) (hp : IndexInv tail p) :
    IndexInv tail (parseBlock tail p blk) := by
  unfold parseBlock
  split
  · rename_i txs _
    exact foldl_parseTx_inv _ _ txs p hp
  · exact hp

theorem isSubscribed_subscribe (p : EthereumParser) (b k : String) :
    isSubscribed (Subscribe tail p b).1 k = true ↔ k = toLower tail b ∨ isSubscribed p k = true := by
  unfold isSubscribed Subscribe mapSet
  by_cases hk : k = toLower tail b <;> simp [hk]

theorem subscribe_inv (p : EthereumParser) (b : String) (hp : IndexInv tail p) :
    IndexInv tail (Subscribe tail p b).1 := by
  obtain ⟨hp1, hp2⟩ := hp
  constructor
  · intro k hk
    rcases (isSubscribed_subscribe p b k).1 hk with h | h
    · exact ⟨b, h.symm⟩
    · exact hp1 k h
  · intro a l hl
    obtain ⟨h1, h2⟩ := hp2 a l hl
    exact ⟨(isSubscribed_subscribe p b a).2 (Or.inr h1), h2⟩

theorem op_inv (p : EthereumParser) (op : Op) (hp : IndexInv tail p) :
    IndexInv tail (applyOp tail p op) := by
  cases op with
  | subscribe b => exact subscribe_inv p b hp
  | parse blk => exact parseBlock_inv p blk hp
  | advance n => exact hp

theorem applyOps_inv (ops : List Op) (p : EthereumParser) (hp : IndexInv tail p) :
    IndexInv tail (applyOps tail p ops) := by
  induction ops generalizing p with
  | nil => exact hp
  | cons op rest ih => exact ih _ (op_inv p op hp)

theorem blank_inv (p0 : EthereumParser) (h1 : p0.subscribedAddresses = (fun _ => none))
    (h2 : p0.addressTransactions = (fun _ => none)) : IndexInv tail p0 := by
  constructor
  · intro k hk
    simp [isSubscribed, h1] at hk
  · intro a l hl
    simp [h2] at hl

theorem applyOps_subscribed (ops : List Op) (p : EthereumParser) (k : String)
    (h : isSubscribed (applyOps tail p ops) k = true) :
    isSubscribed p k = true ∨ ∃ b, Op.subscribe b ∈ ops ∧ toLower tail b = k := by
  induction ops generalizing p with
  | nil => exact Or.inl h
  | cons op rest ih =>
    rcases ih (applyOp tail p op) h with h1 | ⟨b, hb, hk⟩
    · cases op with
      | subscribe b =>
        rcases (isSubscribed_subscribe p b k).1 h1 with h2 | h2
        · exact Or.inr ⟨b, List.mem_cons_self _ _, h2.symm⟩
        · exact Or.inl h2
      | parse blk =>
        left
        unfold isSubscribed at h1 ⊢
        rw [show applyOp tail p (.parse blk) = parseBlock tail p blk from rfl,
          (parseBlock_frame p blk).1] at h1
        exact h1
      | advance n => exact Or.inl h1
    · exact Or.inr ⟨b, List.mem_cons_of_mem _ hb, hk⟩

theorem applyOps_append (p : EthereumParser) (o1 o2 : List Op) :
    applyOps tail p (o1 ++ o2) = applyOps tail (applyOps tail p o1) o2 := by
  simp [applyOps, List.foldl_append]

theorem step_ops (m : Loop) (e : Event) :
    ∃ ops, (step tail m e).parser = applyOps tail m.parser ops ∧
      ∀ b, Op.subscribe b ∈ ops → e = .subscribe b := by
  obtain ⟨p, ph⟩ := m
  have hnil : ∀ Q : String → Prop, ∃ ops, p = applyOps tail p ops ∧
      ∀ b, Op.subscribe b ∈ ops → Q b :=
    fun _ => ⟨[], rfl, fun b hb => absurd hb (List.not_mem_nil _)⟩
  have hsub : ∀ a, ∃ ops, (Subscribe tail p a).1 = applyOps tail p ops ∧
      ∀ b, Op.subscribe b ∈ ops → Event.subscribe a = .subscribe b := by
    intro a
    refine ⟨[.subscribe a], rfl, ?_⟩
    intro b hb
    rw [List.mem_singleton] at hb
    cases hb
    rfl
  cases ph with
  | poll =>
    cases e with
    | latest r =>
      cases r with
      | error err => exact hnil _
      | ok latestBlock =>
        simp only [step]
        split_ifs
        · exact hnil _
        · exact hnil _
    | subscribe a => exact hsub a
    | _ => exact hnil _
  | backoff =>
    cases e with
    | subscribe a => exact hsub a
    | _ => exact hnil _
  | drain b L =>
    cases e with
    | block r =>
      cases r with
      | error err => exact hnil _
      | ok blk =>
        refine ⟨[.parse blk, .advance b], rfl, ?_⟩
        intro x hx
        simp at hx
    | subscribe a => exact hsub a
    | _ => exact hnil _

theorem run_ops (es : List Event) (m : Loop) :
    ∃ ops, (run tail m es).parser = applyOps tail m.parser ops ∧
      ∀ b, Op.subscribe b ∈ ops → Event.subscribe b ∈ es := by
  induction es generalizing m with
  | nil => exact ⟨[], rfl, fun b hb => absurd hb (List.not_mem_nil _)⟩
  | cons e rest ih =>
    obtain ⟨o1, h1, s1⟩ := step_ops m e
    obtain ⟨o2, h2, s2⟩ := ih (step tail m e)
    refine ⟨o1 ++ o2, ?_, ?_⟩
    · rw [run_cons, h2, h1, applyOps_append]
    · intro b hb
      rcases List.mem_append.1 hb with hb | hb
      · rw [s1 b hb]
        exact List.mem_cons_self _ _
      · exact List.mem_cons_of_mem _ (s2 b hb)

theorem start_state_eq (L : Int) (p0 : EthereumParser) (m0 : Loop)
    (h0 : NewEthereumParser (.ok L) = some p0) (hs : start (.ok L) = some m0) :
    m0.parser = p0 := by
  unfold start at hs
  rw [h0] at hs
  simp only [Option.map_some', Option.some.injEq] at hs
  rw [← hs]

theorem never_subscribed_none (L : Int) (p0 : EthereumParser) (ops : List Op) (a : String)
    (h0 : NewEthereumParser (.ok L) = some p0)
    (hnever : ∀ b, Op.subscribe b ∈ ops → toLower tail b ≠ toLower tail a) :
    (applyOps tail p0 ops).addressTransactions (toLower tail a) = none := by
  obtain ⟨b1, b2⟩ := newParser_blank L p0 h0
  have hinv := @applyOps_inv tail ops p0 (blank_inv p0 b1 b2)
  cases hidx : (applyOps tail p0 ops).addressTransactions (toLower tail a) with
  | none => rfl
  | some l =>
    exfalso
    rcases applyOps_subscribed ops p0 (toLower tail a) (hinv.2 _ l hidx).1 with h | ⟨b, hb, hk⟩
    · simp [isSubscribed, b1] at h
    · exact hnever b hb hk

/-- C11, as stated, fails: for an address that was never subscribed `GetTransactions` returns
the `nil` slice of the missing map key, the absent value, and not an empty sequence, whatever
the case tables say above U+017F. -/
theorem getTransactions_nil_counterexample :
    (NewEthereumParser (.ok 5)).map (fun p => GetTransactions idTail p "0xabc") = some none ∧
    ¬ ∃ tail : CaseTail,
      (NewEthereumParser (.ok 5)).map (fun p => GetTransactions tail p "0xabc") =
        some (some []) := by
  refine ⟨by decide, ?_⟩
  rintro ⟨tail, h⟩
  have hnil : (NewEthereumParser (.ok 5)).map (fun p => GetTransactions tail p "0xabc") =
      some none := rfl
  rw [hnil] at h
  simp at h

/-- C11, amended: in every state reached from a freshly built parser by `Subscribe` calls,
`parseBlock` calls and assignments of the counter, in particular in every state of the running
loop, for an address `a` such that no address with the same lower-case form was subscribed,
`GetTransactions a` returns the `nil` slice, which holds no transaction, and the
`/transactions` handler answers a non-empty `a` with the empty sequence. -/
theorem never_subscribed_query (L : Int) (p0 : EthereumParser) (ops : List Op) (a : String)
    (h0 : NewEthereumParser (.ok L) = some p0)
    (hnever : ∀ b, Op.subscribe b ∈ ops → toLower tail b ≠ toLower tail a) :
    GetTransactions tail (applyOps tail p0 ops) a = none ∧
    sliceOf (applyOps tail p0 ops).addressTransactions (toLower tail a) = [] ∧
    (a ≠ "" → transactionsHandler tail (applyOps tail p0 ops) a = .ok (some [])) ∧
    (∀ m0 es, start (.ok L) = some m0 →
      (∀ b, Event.subscribe b ∈ es → toLower tail b ≠ toLower tail a) →
      GetTransactions tail (run tail m0 es).parser a = none ∧
        (a ≠ "" → transactionsHandler tail (run tail m0 es).parser a = .ok (some []))) := by
  have key : ∀ ops2 : List Op, (∀ b, Op.subscribe b ∈ ops2 → toLower tail b ≠ toLower tail a) →
      GetTransactions tail (applyOps tail p0 ops2) a = none ∧
        (a ≠ "" → transactionsHandler tail (applyOps tail p0 ops2) a = .ok (some [])) := by
    intro ops2 h2
    have hn : GetTransactions tail (applyOps tail p0 ops2) a = none :=
      never_subscribed_none L p0 ops2 a h0 h2
    refine ⟨hn, ?_⟩
    intro ha
    unfold transactionsHandler
    rw [if_neg ha, hn]
  refine ⟨(key ops hnever).1, ?_, (key ops hnever).2, ?_⟩
  · unfold sliceOf
    rw [never_subscribed_none L p0 ops a h0 hnever]
    rfl
  · intro m0 es hs hes
    obtain ⟨ops2, hrun, hsub⟩ := run_ops es m0
    rw [hrun, start_state_eq L p0 m0 h0 hs]
    exact key ops2 (fun b hb => hes b (hsub b hb))

/-- Witness for the amended C11: after subscribing `0xAB` and parsing a transfer from `0xab`
to `0xcd`, the query for the never subscribed `0xCD` finds nothing. -/
theorem never_subscribed_query_witness :
    GetTransactions idTail (applyOps idTail (blankParser 0)
        [.subscribe "0xAB",
          .parse [("transactions", .arr [.obj [("from", .str "0xab"), ("to", .str "0xcd")]])]])
        "0xCD" = none ∧
    transactionsHandler idTail (applyOps idTail (blankParser 0)
        [.subscribe "0xAB",
          .parse [("transactions", .arr [.obj [("from", .str "0xab"), ("to", .str "0xcd")]])]])
        "0xCD" = .ok (some []) :=
  ⟨(@never_subscribed_query idTail 5 (blankParser 0)
      [.subscribe "0xAB",
        .parse [("transactions", .arr [.obj [("from", .str "0xab"), ("to", .str "0xcd")]])]]
      "0xCD" rfl
      (by
        intro b hb
        simp only [List.mem_cons, Op.subscribe.injEq, List.mem_singleton, reduceCtorEq,
          or_false, List.mem_nil_iff] at hb
        subst hb
        decide)).1,
    (@never_subscribed_query idTail 5 (blankParser 0)
      [.subscribe "0xAB",
        .parse [("transactions", .arr [.obj [("from", .str "0xab"), ("to", .str "0xcd")]])]]
      "0xCD" rfl
      (by
        intro b hb
        simp only [List.mem_cons, Op.subscribe.injEq, List.mem_singleton, reduceCtorEq,
          or_false, List.mem_nil_iff] at hb
        subst hb
        decide)).2.2.1 (by decide)⟩

set_option maxRecDepth 100000 in
theorem unicodeToLower_idem_low : ∀ n, n < 384 →
    (Char.ofNat (unicodeTo true n)).toNat ≤ 0x17F ∧
      Char.ofNat (unicodeTo true (Char.ofNat (unicodeTo true n)).toNat) =
        Char.ofNat (unicodeTo true n) := by
  decide

theorem unicodeToLower_idem (hst : LowerStable tail) (c : Char) :
    unicodeToLower tail (unicodeToLower tail c) = unicodeToLower tail c := by
  by_cases h : c.toNat ≤ 0x17F
  · obtain ⟨h1, h2⟩ := unicodeToLower_idem_low c.toNat (by omega)
    rw [unicodeToLower_low c h, unicodeToLower_low _ h1, h2]
  · have hc : unicodeToLower tail c = tail.lower c := if_neg h
    rw [hc]
    exact hst c (by omega)

theorem toLower_of_isLowerCase (hst : LowerStable tail) (s : String) (h : IsLowerCase tail s) :
    toLower tail s = s := by
  obtain ⟨x, rfl⟩ := h
  unfold toLower
  congr 1
  simp only [List.map_map]
  apply List.map_congr_left
  intro c _
  exact unicodeToLower_idem hst c

theorem lowerStable_idTail : LowerStable idTail := by
  intro c hc
  show unicodeToLower idTail c = c
  exact if_neg (by omega)

/-- C20: in every state reached from a freshly built parser by `Subscribe` calls, `parseBlock`
calls and assignments of the counter, which covers every state of the running loop, every key
`a` of the transaction index is in lower-case form (the lower-case form of a string) and is a
member of the subscription set, and every transaction stored under `a` has `From = a` or
`To = a`, with `From` and `To` in lower-case form; and when lower-casing leaves the lower-case
forms of the code points above U+017F unchanged, a string in lower-case form is a string that
lower-casing leaves unchanged. -/
theorem index_invariant (L : Int) (p0 : EthereumParser) (ops : List Op) (a : String)
    (l : List Transaction)
    (h0 : NewEthereumParser (.ok L) = some p0)
    (hl : (applyOps tail p0 ops).addressTransactions a = some l) :
    IsLowerCase tail a ∧ isSubscribed (applyOps tail p0 ops) a = true ∧
    (∀ tx ∈ l, (tx.From = a ∨ tx.To = a) ∧ IsLowerCase tail tx.From ∧ IsLowerCase tail tx.To) ∧
    (∀ m0 es, start (.ok L) = some m0 →
      ∃ ops2, (run tail m0 es).parser = applyOps tail p0 ops2) ∧
    (LowerStable tail → ∀ s, IsLowerCase tail s ↔ toLower tail s = s) := by
  obtain ⟨b1, b2⟩ := newParser_blank L p0 h0
  have hinv := @applyOps_inv tail ops p0 (blank_inv p0 b1 b2)
  obtain ⟨h1, h2⟩ := hinv.2 a l hl
  refine ⟨hinv.1 a h1, h1, h2, ?_, ?_⟩
  · intro m0 es hs
    obtain ⟨ops2, hrun, _⟩ := @run_ops tail es m0
    exact ⟨ops2, by rw [hrun, start_state_eq L p0 m0 h0 hs]⟩
  · intro hst s
    exact ⟨toLower_of_isLowerCase hst s, fun h => ⟨s, h⟩⟩

/-- Witness for C20: after subscribing `0xAB` and parsing a transfer from `0xAb` to `0xCD`,
the index holds the key `0xab`, a subscribed lower-case form that lower-casing leaves
unchanged, with one transaction sent by `0xab`. -/
theorem index_invariant_witness :
    (IsLowerCase idTail "0xab" ∧ toLower idTail "0xab" = "0xab") ∧
    isSubscribed (applyOps idTail (blankParser 0)
      [.subscribe "0xAB",
        .parse [("transactions", .arr [.obj [("from", .str "0xAb"), ("to", .str "0xCD")]])]])
      "0xab" = true ∧
    (∀ tx ∈ [decodeTx idTail 0 0 [("from", .str "0xAb"), ("to", .str "0xCD")]],
      (tx.From = "0xab" ∨ tx.To = "0xab") ∧ IsLowerCase idTail tx.From ∧
        IsLowerCase idTail tx.To) :=
  ⟨⟨(@index_invariant idTail 5 (blankParser 0)
      [.subscribe "0xAB",
        .parse [("transactions", .arr [.obj [("from", .str "0xAb"), ("to", .str "0xCD")]])]]
      "0xab" [decodeTx idTail 0 0 [("from", .str "0xAb"), ("to", .str "0xCD")]] rfl
      (by decide)).1,
    ((@index_invariant idTail 5 (blankParser 0)
      [.subscribe "0xAB",
        .parse [("transactions", .arr [.obj [("from", .str "0xAb"), ("to", .str "0xCD")]])]]
      "0xab" [decodeTx idTail 0 0 [("from", .str "0xAb"), ("to", .str "0xCD")]] rfl
      (by decide)).2.2.2.2 lowerStable_idTail "0xab").1
      (@index_invariant idTail 5 (blankParser 0)
        [.subscribe "0xAB",
          .parse [("transactions", .arr [.obj [("from", .str "0xAb"), ("to", .str "0xCD")]])]]
        "0xab" [decodeTx idTail 0 0 [("from", .str "0xAb"), ("to", .str "0xCD")]] rfl
        (by decide)).1⟩,
    (@index_invariant idTail 5 (blankParser 0)
      [.subscribe "0xAB",
        .parse [("transactions", .arr [.obj [("from", .str "0xAb"), ("to", .str "0xCD")]])]]
      "0xab" [decodeTx idTail 0 0 [("from", .str "0xAb"), ("to", .str "0xCD")]] rfl
      (by decide)).2.1,
    (@index_invariant idTail 5 (blankParser 0)
      [.subscribe "0xAB",
        .parse [("transactions", .arr [.obj [("from", .str "0xAb"), ("to", .str "0xCD")]])]]
      "0xab" [decodeTx idTail 0 0 [("from", .str "0xAb"), ("to", .str "0xCD")]] rfl
      (by decide)).2.2.1⟩
/-! ## weiToEther -/

theorem bitLenAux_le (fuel : Nat) : ∀ (n k : Nat), n < 2 ^ k → bitLenAux fuel n ≤ k := by
  induction fuel with
  | zero => intro n k _; simp [bitLenAux]
  | succ fuel ih =>
    intro n k h
    unfold bitLenAux
    split_ifs with h0
    · omega
    · cases k with
      | zero => simp at h; omega
      | succ k =>
        have : n / 2 < 2 ^ k := by
          rw [pow_succ] at h
          omega
        have := ih (n / 2) k this
        omega

theorem bitLen_le (n k : Nat) (h : n < 2 ^ k) : bitLen n ≤ k := bitLenAux_le n n k h

theorem roundHalfEven_close (a d : Nat) (hd : 0 < d) :
    2 * (roundHalfEven a d * d) ≤ 2 * a + d ∧ 2 * a ≤ 2 * (roundHalfEven a d * d) + d := by
  have hdm := Nat.div_add_mod a d
  have hr := Nat.mod_lt a hd
  have hm : a / d * d = d * (a / d) := Nat.mul_comm _ _
  unfold roundHalfEven
  split_ifs with h
  · rw [Nat.add_mul, Nat.one_mul]
    rcases h with h | h <;> omega
  · rw [not_or] at h
    omega

theorem roundHalfEven_eq (a d N : Nat) (hd : 0 < d) (h1 : 2 * a < 2 * (N * d) + d)
    (h2 : 2 * (N * d) < 2 * a + d) : roundHalfEven a d = N := by
  have hdm := Nat.div_add_mod a d
  have hr := Nat.mod_lt a hd
  have hm : d * (a / d) = a / d * d := Nat.mul_comm _ _
  have hq1 : a / d ≤ N := by
    by_contra hc
    have : (N + 1) * d ≤ a / d * d := Nat.mul_le_mul_right d (by omega)
    rw [Nat.add_mul, Nat.one_mul] at this
    omega
  have hq2 : N ≤ a / d + 1 := by
    by_contra hc
    have : (a / d + 2) * d ≤ N * d := Nat.mul_le_mul_right d (by omega)
    rw [Nat.add_mul] at this
    omega
  unfold roundHalfEven
  rcases Nat.lt_or_ge (a / d) N with hlt | hge
  · have hN : N = a / d + 1 := by omega
    have hNd : N * d = a / d * d + d := by rw [hN, Nat.add_mul, Nat.one_mul]
    rw [if_pos (Or.inl (by omega))]
    omega
  · have hN : N = a / d := by omega
    have hNd : N * d = a / d * d := by rw [hN]
    rw [if_neg (by rw [not_or]; constructor <;> omega)]
    omega

theorem quoScale_ge (x : Nat) (hx : x < 16 * 10 ^ 18) : 60 ≤ quoScale x (10 ^ 18) 64 := by
  have hbl : bitLen x ≤ 64 := bitLen_le x 64 (by norm_num at hx ⊢; omega)
  have hbD : bitLen (10 ^ 18) = 60 := by decide
  unfold quoScale
  rw [hbD]
  split_ifs with hc
  · by_cases hb : bitLen x = 64
    · rw [hb] at hc
      norm_num at hc hx
      omega
    · omega
  · omega

theorem quo_text_exact (x : Nat) (hx : x < 16 * 10 ^ 18) :
    roundHalfEven (quoMant x (10 ^ 18) 64 * 10 ^ 18) (2 ^ quoScale x (10 ^ 18) 64) = x := by
  have hs := quoScale_ge x hx
  have hpow : (10 : Nat) ^ 18 < 2 ^ quoScale x (10 ^ 18) 64 :=
    lt_of_lt_of_le (by norm_num) (Nat.pow_le_pow_right (by norm_num) hs)
  obtain ⟨h1, h2⟩ := roundHalfEven_close (x * 2 ^ quoScale x (10 ^ 18) 64) (10 ^ 18)
    (by norm_num)
  apply roundHalfEven_eq _ _ _ (by positivity)
  · unfold quoMant
    omega
  · unfold quoMant
    omega

theorem fixedDigits_spec (w : Nat) : ∀ n : Nat, (fixedDigits w n).length = w ∧
    (∀ c ∈ fixedDigits w n, c ∈ decDigits) ∧
    digitsValue 10 decDigitValue (fixedDigits w n) = n % 10 ^ w := by
  induction w with
  | zero =>
    intro n
    simp [fixedDigits, digitsValue, Nat.mod_one]
  | succ w ih =>
    intro n
    obtain ⟨i1, i2, i3⟩ := ih (n / 10)
    obtain ⟨h1, h2, _, _⟩ := digitChar_facts (n % 10) (Nat.mod_lt _ (by norm_num))
    simp only [fixedDigits]
    refine ⟨by simp [i1], ?_, ?_⟩
    · intro c hc
      rcases List.mem_append.1 hc with hc | hc
      · exact i2 c hc
      · rw [List.mem_singleton] at hc
        rw [hc]
        exact h1
    · rw [digitsValue_append, i3]
      simp only [digitsValue, h2, List.length_singleton, List.length_nil]
      have hp : 10 ^ (w + 1) = 10 * 10 ^ w := by rw [pow_succ, Nat.mul_comm]
      rw [hp, Nat.mod_mul]
      simp only [pow_zero]
      omega

theorem fixedPoint18_spec (n : Nat) :
    ∃ ip fp, fixedPoint18 false n = String.mk (ip ++ '.' :: fp) ∧
      IsCanonicalDecimal (String.mk ip) ∧ fp.length = 18 ∧ (∀ c ∈ fp, c ∈ decDigits) ∧
      digitsValue 10 decDigitValue ip * 10 ^ 18 + digitsValue 10 decDigitValue fp = n := by
  obtain ⟨f1, f2, f3⟩ := fixedDigits_spec 18 (n % 10 ^ 18)
  refine ⟨utoa (n / 10 ^ 18 + 1) (n / 10 ^ 18), fixedDigits 18 (n % 10 ^ 18), ?_,
    utoa_canonical _, f1, f2, ?_⟩
  · simp [fixedPoint18]
  · rw [utoa_value, f3, Nat.mod_mod]
    exact Nat.div_add_mod' n (10 ^ 18)

theorem weiToEther_of_nat (w : String) (n : Nat) (hset : setString w.data 10 = some (n : Int))
    (hn : n < 16 * 10 ^ 18) : weiToEther w = fixedPoint18 false n := by
  have hbl : bitLen n ≤ 64 := bitLen_le n 64 (by norm_num at hn ⊢; omega)
  unfold weiToEther
  rw [hset]
  simp only [Int.natAbs_ofNat]
  split_ifs with h0
  · subst h0
    rfl
  · have hneg : decide ((n : Int) < 0) = false := by simp
    rw [hneg, Nat.max_eq_right hbl]
    unfold textF18
    rw [quo_text_exact n hn]

/-- C15, as stated, fails: for 18000000000000000001 wei the quotient is first rounded to 64
bits, and the text is `18.000000000000000002`, not the exact `18.000000000000000001`. -/
theorem weiToEther_rounding_counterexample :
    weiToEther "18000000000000000001" = "18.000000000000000002" ∧
    weiToEther "18000000000000000001" ≠ "18.000000000000000001" := by
  decide

/-- C15, amended: for every base-10 integer literal `w` of a value from 0 to below `16·10^18`,
`weiToEther w` is the integer part of `w / 10^18` in canonical digits, a point, and exactly 18
fractional digits, which together denote `w` exactly; for every string that is not a base-10
integer literal it is `"0"`. -/
theorem weiToEther_exact (w : String) :
    (isDecimalLiteral w = true → 0 ≤ literalValue w → literalValue w < 16 * 10 ^ 18 →
      ∃ ip fp, weiToEther w = String.mk (ip ++ '.' :: fp) ∧
        IsCanonicalDecimal (String.mk ip) ∧ fp.length = 18 ∧ (∀ c ∈ fp, c ∈ decDigits) ∧
        ((digitsValue 10 decDigitValue ip * 10 ^ 18 + digitsValue 10 decDigitValue fp : Nat) :
          Int) = literalValue w) ∧
    (isDecimalLiteral w = false → weiToEther w = "0") := by
  constructor
  · intro hlit h0 hlt
    obtain ⟨n, hn⟩ := Int.eq_ofNat_of_zero_le h0
    have hset := setString_decimal_literal w hlit
    rw [hn] at hset hlt
    have hn16 : n < 16 * 10 ^ 18 := by exact_mod_cast hlt
    obtain ⟨ip, fp, e1, e2, e3, e4, e5⟩ := fixedPoint18_spec n
    refine ⟨ip, fp, ?_, e2, e3, e4, ?_⟩
    · rw [weiToEther_of_nat w n hset hn16, e1]
    · rw [e5, hn]
  · intro hbad
    unfold weiToEther
    rw [setString_none_of_not_signed 10 decDigits w.data mem_decDigits_of_digitVal_lt hbad]

/-- Witness for the amended C15 at one wei, printed as `0.000000000000000001`, and at a
malformed text. -/
theorem weiToEther_exact_witness :
    (∃ ip fp, weiToEther "1" = String.mk (ip ++ '.' :: fp) ∧
      IsCanonicalDecimal (String.mk ip) ∧ fp.length = 18 ∧ (∀ c ∈ fp, c ∈ decDigits) ∧
      ((digitsValue 10 decDigitValue ip * 10 ^ 18 + digitsValue 10 decDigitValue fp : Nat) :
        Int) = literalValue "1") ∧
    weiToEther "1" = "0.000000000000000001" ∧
    weiToEther "1.5" = "0" :=
  ⟨(weiToEther_exact "1").1 (by decide) (by decide) (by decide), by decide,
    (weiToEther_exact "1.5").2 (by decide)⟩

end EthParser
